import Mathlib

/-!
Verification of the ReAct agent core (message-history tree, response
format decoder, guarded dispatch loop) from `agent.py` / `response_parser.py`.

Texts are modelled as `List Char`; Python string primitives (`rfind`,
`split`, `strip`, `lstrip`, `find`) are embedded as executable functions
with the same semantics on those lists.  Agent-side message contents use
Lean `String` (whose model is a list of characters).
-/

set_option maxHeartbeats 1000000
set_option maxRecDepth 100000

/-! ## Python string primitives -/

/-- The characters removed by Python `str.strip()` with no argument
(ASCII whitespace; other Unicode whitespace is not used by this program). -/
def isPySpace (c : Char) : Bool :=
  c = ' ' || c = '\t' || c = '\n' || c = '\r' || c = '\x0b' || c = '\x0c'

/-- Python `str.strip()`: remove leading and trailing whitespace. -/
def pyStrip (s : List Char) : List Char :=
  ((s.dropWhile isPySpace).reverse.dropWhile isPySpace).reverse

/-- `startsWithL needle hay` holds when `needle` is an initial segment of
`hay` (Python `hay.startswith(needle)`). -/
def startsWithL : List Char → List Char → Bool
  | [], _ => true
  | _ :: _, [] => false
  | c :: cs, d :: ds => c = d && startsWithL cs ds

/-- Largest `i ≤ start` at which `needle` begins in `hay`; the scan of
Python `str.rfind` from the right. -/
def rfindFrom (needle hay : List Char) : Nat → Option Nat
  | 0 => if startsWithL needle hay then some 0 else none
  | i + 1 => if startsWithL needle (hay.drop (i + 1)) then some (i + 1) else rfindFrom needle hay i

/-- Python `hay.rfind(needle, 0, e)`: highest index of an occurrence of
`needle` contained in `hay[0:e]`, `none` when there is none. -/
def pyRfind (needle hay : List Char) (e : Nat) : Option Nat :=
  if e < needle.length then none else rfindFrom needle hay (e - needle.length)

/-- Index of the leftmost occurrence of `needle` in `hay`
(Python `hay.find(needle)`). -/
def firstOcc (needle : List Char) : List Char → Option Nat
  | [] => if startsWithL needle [] then some 0 else none
  | c :: cs => if startsWithL needle (c :: cs) then some 0 else (firstOcc needle cs).map (· + 1)

/-- Python `str.split(sep)` for a non-empty separator: repeatedly cut at the
leftmost occurrence.  Structural fuel (the list length suffices) keeps the
definition computable by the kernel. -/
def pySplitFuel (sep : List Char) : Nat → List Char → List (List Char)
  | 0, s => [s]
  | fuel + 1, s =>
    match firstOcc sep s with
    | none => [s]
    | some i => s.take i :: pySplitFuel sep fuel (s.drop (i + sep.length))

/-- Python `s.split(sep)` (non-empty `sep`). -/
def pySplit (sep s : List Char) : List (List Char) :=
  pySplitFuel sep (s.length + 1) s

/-- Index of the first newline (Python `s.find("\n")`). -/
def findNL : List Char → Option Nat
  | [] => none
  | c :: cs => if c = '\n' then some 0 else (findNL cs).map (· + 1)

/-- Digits-only numeral value, `none` if empty or a non-digit appears. -/
def digitsVal : List Char → Option Nat
  | [] => none
  | [c] => if c.isDigit then some (c.toNat - '0'.toNat) else none
  | c :: cs =>
    if c.isDigit then (digitsVal cs).map (fun n => (c.toNat - '0'.toNat) * 10 ^ cs.length + n)
    else none

/-- Python `int(s)` on a string: surrounding whitespace ignored, optional
single sign, then digits.  (Underscore digit grouping is not modelled; the
program only ever passes plain decimal literals.) -/
def pyInt (s : List Char) : Option Int :=
  match pyStrip s with
  | [] => none
  | c :: cs =>
    if c = '-' then (digitsVal cs).map (fun n => -(n : Int))
    else if c = '+' then (digitsVal cs).map (fun n => (n : Int))
    else (digitsVal (c :: cs)).map (fun n => (n : Int))

/-! ## Python dict with string keys (insertion ordered)

`arguments[k] = v` on a Python dict replaces the value in place when the key
is present (keeping its position) and appends otherwise. Keys are unique by
construction, so replacing the first hit is exact. -/

def dictInsert : List (List Char × List Char) → List Char → List Char → List (List Char × List Char)
  | [], k, v => [(k, v)]
  | kv :: rest, k, v => if kv.1 = k then (k, v) :: rest else kv :: dictInsert rest k v

def dictLookup : List (List Char × List Char) → List Char → Option (List Char)
  | [], _ => none
  | kv :: rest, k => if kv.1 = k then some kv.2 else dictLookup rest k

/-- The key sequence of the mapping, in insertion order. -/
def dictKeys (d : List (List Char × List Char)) : List (List Char) :=
  d.map Prod.fst

/-- Number of entries stored under key `k`. -/
def countKey (d : List (List Char × List Char)) (k : List Char) : Nat :=
  (dictKeys d).countP (fun x => x = k)

/-- Value of the rightmost pair with key `k` in a plain association list. -/
def lastAssoc (ps : List (List Char × List Char)) (k : List Char) : Option (List Char) :=
  ps.foldl (fun acc nv => if nv.1 = k then some nv.2 else acc) none

/-! ## ResponseParser (`response_parser.py`) -/

namespace ResponseParser

def BEGIN_CALL : List Char := "----BEGIN_FUNCTION_CALL----".toList

def END_CALL : List Char := "----END_FUNCTION_CALL----".toList

def ARG_SEP : List Char := "----ARG----".toList

/-- The template advertised to the model (`ResponseParser.response_format`). -/
def response_format : String :=
  "\nyour_thoughts_here\n...\n----BEGIN_FUNCTION_CALL----\nfunction_name\n----ARG----\narg1_name\narg1_value (can be multiline)\n----ARG----\narg2_name\narg2_value (can be multiline)\n...\n----END_FUNCTION_CALL----\n"

/-- The record returned by `ResponseParser.parse`. -/
structure Action where
  thought : List Char
  name : List Char
  arguments : List (List Char × List Char)
deriving DecidableEq

/-- The loop of `parse` over the argument blocks (`response_parser.py`
lines 67-83): `lstrip("\n")`, skip whitespace-only blocks, split the first
line off as the argument name, `strip` the value, store in the dict. -/
def parseArgBlocks : List (List Char) → List (List Char × List Char) →
    Except String (List (List Char × List Char))
  | [], acc => .ok acc
  | block :: rest, acc =>
    let segment := block.dropWhile (fun c => c = '\n')
    if pyStrip segment = [] then parseArgBlocks rest acc
    else
      match findNL segment with
      | none => .error "Malformed argument block: expected name and value"
      | some newline_idx =>
        let arg_name := pyStrip (segment.take newline_idx)
        let arg_value := pyStrip (segment.drop (newline_idx + 1))
        if arg_name = [] then .error "Malformed argument block: missing argument name"
        else parseArgBlocks rest (dictInsert acc arg_name arg_value)

/-- Interpretation of the text strictly between the located markers
(`response_parser.py` lines 58-85); `parse` calls this after `rfind`-ing the
markers. -/
def parseBody (thought inner : List Char) : Except String Action :=
  match pySplit ARG_SEP inner with
  | [] => .error "Malformed function call: empty body"
  | fnPart :: blocks =>
    let func_name := pyStrip fnPart
    if func_name = [] then .error "Malformed function call: missing function name"
    else
      match parseArgBlocks blocks [] with
      | .error e => .error e
      | .ok args => .ok ⟨thought, func_name, args⟩

/-- `ResponseParser.parse`: locate the last `END_CALL`, the last
`BEGIN_CALL` before it, take the text before the begin marker (stripped) as
the thought and decode the body between the markers. -/
def parse (text : List Char) : Except String Action :=
  match pyRfind END_CALL text text.length with
  | none => .error "Missing END_FUNCTION_CALL delimiter"
  | some end_idx =>
    match pyRfind BEGIN_CALL text end_idx with
    | none => .error "Missing BEGIN_FUNCTION_CALL delimiter"
    | some begin_idx =>
      parseBody (pyStrip (text.take begin_idx))
        ((text.take end_idx).drop (begin_idx + BEGIN_CALL.length))

end ResponseParser

/-! ## Message history tree (`agent.py`) -/

/-- One node of the message tree (`agent.py` `add_message`).  `time.time()`
is an external clock; timestamps are modelled as the constant 0 (no claim
mentions them). -/
structure Message where
  role : String
  content : String
  timestamp : Nat
  unique_id : Nat
  parent : Option Nat
  children : List Nat
deriving DecidableEq

/-- The mutable state of a `ReactAgent` run: the node arena, the root and
current pointers (Python uses `-1` as the not-yet-initialised sentinel) and
the `_recent_files` set (modelled as a duplicate-free list). -/
structure AgentState where
  id_to_message : List Message
  root_message_id : Int
  current_message_id : Int
  recent_files : List String
deriving DecidableEq

/-- Replace the element at index `i` (identity when out of range). -/
def modifyNth : List α → Nat → (α → α) → List α
  | [], _, _ => []
  | x :: xs, 0, f => f x :: xs
  | x :: xs, n + 1, f => x :: modifyNth xs n f

/-- Python `set.add`. -/
def insertFile (fs : List String) (f : String) : List String :=
  if f ∈ fs then fs else fs ++ [f]

def nmsg (st : AgentState) : Nat := st.id_to_message.length

def msg? (st : AgentState) (i : Nat) : Option Message := st.id_to_message.get? i

def parent? (st : AgentState) (i : Nat) : Option Nat := (msg? st i).bind Message.parent

def childrenOf (st : AgentState) (i : Nat) : List Nat :=
  ((msg? st i).map Message.children).getD []

/-- `ReactAgent.add_message`: create a node whose parent is the current
node (none for the very first node, which becomes the root), link it into
the parent's children, move `current` onto it and return its id. -/
def add_message (st : AgentState) (role content : String) : AgentState × Nat :=
  let new_message_id := nmsg st
  let parent_id : Option Nat :=
    if st.current_message_id = -1 then none else some st.current_message_id.toNat
  let message : Message :=
    ⟨role, content, 0, new_message_id, parent_id, []⟩
  let msgs := st.id_to_message ++ [message]
  match parent_id with
  | some p =>
    ({ st with
        id_to_message := modifyNth msgs p (fun m => { m with children := m.children ++ [new_message_id] }),
        current_message_id := (new_message_id : Int) }, new_message_id)
  | none =>
    ({ st with
        id_to_message := msgs,
        root_message_id := (new_message_id : Int),
        current_message_id := (new_message_id : Int) }, new_message_id)

/-- `ReactAgent.set_message_content`: in-place content update, `IndexError`
when the id is out of range. -/
def set_message_content (st : AgentState) (message_id : Int) (content : String) :
    Except String AgentState :=
  if message_id < 0 ∨ ((nmsg st : Int) ≤ message_id) then .error "message_id out of range"
  else .ok { st with
    id_to_message := modifyNth st.id_to_message message_id.toNat (fun m => { m with content := content }) }

/-- Ids fixed by `ReactAgent.__init__`, which appends exactly the system,
user and instruction nodes in that order. -/
def system_message_id : Nat := 0

def user_message_id : Nat := 1

def instructions_message_id : Nat := 2

/-- The agent state right after `ReactAgent.__init__`. -/
def initState : AgentState :=
  let st0 : AgentState := ⟨[], -1, -1, []⟩
  let st1 := (add_message st0 "system" "You are a Smart ReAct agent.").1
  let st2 := (add_message st1 "user" "").1
  (add_message st2 "instructor" "").1

/-- The ancestor walk of `ReactAgent.get_context`: push the cursor, follow
the parent pointer, stop at a node with no parent.  The source's `while`
loop has no bound; under the tree invariant parent ids strictly decrease,
so `nmsg st` steps of fuel always suffice. -/
def walkUp (st : AgentState) : Nat → Nat → List Nat
  | 0, _ => []
  | fuel + 1, cursor =>
    cursor ::
      match parent? st cursor with
      | none => []
      | some p => walkUp st fuel p

/-- Root-to-current path of ids rendered by `get_context`. -/
def pathIds (st : AgentState) : List Nat :=
  if st.current_message_id = -1 then []
  else (walkUp st (nmsg st) st.current_message_id.toNat).reverse

/-! ## Tool registry (`function_map`)

Python stores bound methods in `self.function_map` and reflects on them with
`inspect.signature` / `inspect.getdoc`.  A registered capability is modelled
as explicit data: its name, declared parameter names (in signature order),
the reflected signature/docstring text, and the callable itself, which may
read and update the agent state and may raise. -/

structure Tool where
  name : String
  params : List String
  signatureStr : String
  docstring : String
  call : AgentState → List (String × String) → Except String (String × AgentState)

def findTool (tools : List Tool) (name : String) : Option Tool :=
  tools.find? (fun t => t.name == name)

def lookupArg (args : List (String × String)) (k : String) : Option String :=
  (args.find? (fun kv => kv.1 == k)).map (·.2)

/-- `ReactAgent.message_id_to_context`.  The tool catalog of a system node
is generated fresh from the registry at render time. -/
def message_id_to_context (tools : List Tool) (st : AgentState) (message_id : Nat) : String :=
  match msg? st message_id with
  | none => ""
  | some message =>
    let header :=
      "----------------------------\n|MESSAGE(role=\"" ++ message.role ++ "\", id="
        ++ toString message.unique_id ++ ")|\n"
    if message.role = "system" then
      let tool_descriptions := String.intercalate "\n"
        (tools.map (fun t => "Function: " ++ t.name ++ t.signatureStr ++ "\n" ++ t.docstring ++ "\n"))
      header ++ message.content ++ "\n"
        ++ "--- AVAILABLE TOOLS ---\n" ++ tool_descriptions ++ "\n\n"
        ++ "--- RESPONSE FORMAT ---\n" ++ ResponseParser.response_format ++ "\n"
    else if message.role = "instructor" then
      header ++ "YOU MUST FOLLOW THE FOLLOWING INSTRUCTIONS AT ANY COST. OTHERWISE, YOU WILL BE DECOMISSIONED.\n"
        ++ message.content ++ "\n"
    else
      header ++ message.content ++ "\n"

/-- `ReactAgent.get_context`: walk ancestors from `current` to the root,
reverse, render each node and concatenate. -/
def get_context (tools : List Tool) (st : AgentState) : String :=
  if st.current_message_id = -1 then ""
  else
    String.join
      (((walkUp st (nmsg st) st.current_message_id.toNat).reverse).map
        (message_id_to_context tools st))

/-- `ReactAgent.add_instructions_and_backtrack` after the `int(...)`
coercion of `at_message_id` (the registry wrapper performs the coercion):
validate the id, rewrite the instruction node, move `current`. -/
def add_instructions_and_backtrack_core (st : AgentState) (instructions : String)
    (at_message_id : Int) : Except String (String × AgentState) :=
  if at_message_id < 0 ∨ ((nmsg st : Int) ≤ at_message_id) then
    .error "at_message_id out of range"
  else
    match set_message_content st (instructions_message_id : Int) instructions with
    | .error e => .error e
    | .ok st' =>
      .ok ("Updated instructions and backtracked to message " ++ toString at_message_id ++ ".",
        { st' with current_message_id := at_message_id })

/-! ## Guarded dispatch loop (`ReactAgent.run`) -/

/-- Python `os.path.basename`: the part after the last slash. -/
def basename (f : String) : String :=
  String.mk ((f.toList.reverse.takeWhile (fun c => ¬ c = '/')).reverse)

/-- Python `needle in hay` for strings. -/
def strContains (hay needle : String) : Bool :=
  (firstOcc needle.toList hay.toList).isSome

/-- Python `hay.startswith(needle)`. -/
def startsWithStr (hay needle : String) : Bool :=
  startsWithL needle.toList hay.toList

/-- One unified-diff marker test of `_recent_tool_output_has_diff`. -/
def diffMarker (content : String) : Bool :=
  strContains content "diff --git" || startsWithStr content "+++ " || startsWithStr content "--- "

/-- The scan of `ReactAgent._recent_tool_output_has_diff` over the node list
in reverse order: look at up to 10 tool messages; a diff marker counts when
`_recent_files` is empty or some hinted basename occurs in the content. -/
def hasDiffScan (files : List String) : List Message → Nat → Bool
  | [], _ => false
  | m :: rest, count =>
    if ¬ m.role = "tool" then hasDiffScan files rest count
    else if diffMarker m.content then
      if files.isEmpty then true
      else if files.any (fun f => ¬ basename f = "" && strContains m.content (basename f)) then true
      else if 10 ≤ count + 1 then false else hasDiffScan files rest (count + 1)
    else if 10 ≤ count + 1 then false else hasDiffScan files rest (count + 1)

def recent_tool_output_has_diff (st : AgentState) : Bool :=
  hasDiffScan st.recent_files st.id_to_message.reverse 0

/-- The `t - f > 120` policy condition of the large-edit guard (`agent.py`
lines 283-290).  In the source the guard's `raise ValueError` sits inside
the same `try` block as the `int(...)` coercions, and the block's
`except Exception: pass` (written for coercion failures) also catches the
guard's own exception — so even when this condition holds the dispatch is
NOT rejected.  The condition is recorded here so that theorems can state
when the guard was supposed to fire. -/
def largeRangeGuardTripped (from_line to_line : Option String) : Bool :=
  match from_line, to_line with
  | some f, some t =>
    match pyInt f.toList, pyInt t.toList with
    | some fi, some ti => decide (ti - fi > 120)
    | _, _ => false
  | _, _ => false

def hintTools : List String := ["replace_in_file", "show_file", "show_file_range"]

inductive StepResult where
  | next (st : AgentState)
  | finished (payload : String) (st : AgentState)

/-- One iteration of the `for` loop in `ReactAgent.run`: build context,
query the model, record the assistant turn, parse, look the function up,
filter the arguments by the declared parameter names, record file hints,
apply the guards, invoke the capability, record the outcome, and detect
`finish`.  Every parse/dispatch failure becomes a tool-role node and the
loop continues.  The large-range guard contributes nothing because its
exception is swallowed at the source (see `largeRangeGuardTripped`). -/
def runStep (tools : List Tool) (llm : String → String) (guard_empty_diff : Bool)
    (st : AgentState) : StepResult :=
  let prompt := get_context tools st
  let model_output := llm prompt
  let st := (add_message st "assistant" model_output).1
  match ResponseParser.parse model_output.toList with
  | .error e => .next (add_message st "tool" ("Error parsing model output: " ++ e)).1
  | .ok parsed =>
    let fn_name : String := String.mk parsed.name
    let fn_args : List (String × String) :=
      parsed.arguments.map (fun kv => (String.mk kv.1, String.mk kv.2))
    match findTool tools fn_name with
    | none => .next (add_message st "tool" ("Error: unknown function '" ++ fn_name ++ "'")).1
    | some tool =>
      let accepted := tool.params.filterMap (fun p => (lookupArg fn_args p).map (fun v => (p, v)))
      let st :=
        if hintTools.contains fn_name then
          match lookupArg accepted "file_path" with
          | some f => if ¬ f = "" then { st with recent_files := insertFile st.recent_files f } else st
          | none => st
        else st
      let guardError : Option String :=
        if fn_name = "replace_in_file" then
          match lookupArg accepted "file_path" with
          | some f =>
            if ¬ f = "" ∧ ¬ st.recent_files.contains f then
              some "Edit blocked: inspect the file first with show_file/show_file_range."
            else none
          | none => none
        else none
      match guardError with
      | some e => .next (add_message st "tool" ("Error executing " ++ fn_name ++ ": " ++ e)).1
      | none =>
        match tool.call st accepted with
        | .error e => .next (add_message st "tool" ("Error executing " ++ fn_name ++ ": " ++ e)).1
        | .ok (result, st') =>
          let tool_output := result
          let st'' := (add_message st' "tool" tool_output).1
          if fn_name = "finish" then
            if guard_empty_diff ∧ ¬ recent_tool_output_has_diff st'' then
              .next (add_message st'' "tool" "Guard blocked finish: no non-empty staged diff detected. Continue editing and call stage_and_diff before finish.").1
            else .finished tool_output st''
          else .next st''

inductive RunResult where
  | finished (payload : String) (st : AgentState)
  | stepLimitReached (st : AgentState)

def runResultPayload : RunResult → Option String
  | .finished payload _ => some payload
  | .stepLimitReached _ => none

def runResultState : RunResult → AgentState
  | .finished _ st => st
  | .stepLimitReached st => st

/-- The bounded `for` loop of `ReactAgent.run`. -/
def runLoop (tools : List Tool) (llm : String → String) (guard_empty_diff : Bool) :
    Nat → AgentState → RunResult
  | 0, st => .stepLimitReached st
  | n + 1, st =>
    match runStep tools llm guard_empty_diff st with
    | .next st' => runLoop tools llm guard_empty_diff n st'
    | .finished payload st' => .finished payload st'

/-- `ReactAgent.set_user_prompt` (the user node id 1 always exists after
`__init__`, so the range check of `set_message_content` passes). -/
def set_user_prompt (st : AgentState) (task : String) : AgentState :=
  { st with id_to_message :=
      modifyNth st.id_to_message user_message_id (fun m => { m with content := task }) }

/-- `ReactAgent.run` on a freshly initialised agent: clamp the budget to
100, set the task, point `current` at the instruction node, loop. -/
def agentRun (tools : List Tool) (llm : String → String) (task : String)
    (max_steps : Nat) (guard_empty_diff : Bool) : RunResult :=
  let step_limit := min max_steps 100
  let st := set_user_prompt initState task
  let st := { st with current_message_id := (instructions_message_id : Int) }
  runLoop tools llm guard_empty_diff step_limit st

/-- The caller-visible behaviour of `ReactAgent.run`: the payload of
`finish`, or the `RuntimeError` raised on step exhaustion. -/
def run (tools : List Tool) (llm : String → String) (task : String)
    (max_steps : Nat) (guard_empty_diff : Bool) : Except String String :=
  match agentRun tools llm task max_steps guard_empty_diff with
  | .finished payload _ => .ok payload
  | .stepLimitReached _ => .error "Step limit reached without calling finish"

/-- The mandatory `finish` tool registered by `__init__` (returns its
`result` argument; docstring abridged). -/
def finish : Tool :=
  { name := "finish", params := ["result"],
    signatureStr := "(result: str)",
    docstring := "End the run and return the final summary/result string.",
    call := fun st args =>
      match lookupArg args "result" with
      | some v => .ok (v, st)
      | none => .error "ReactAgent.finish() missing 1 required positional argument: 'result'" }

/-! ## Abstract tree operations (for the structural-invariant claims) -/

inductive TreeOp where
  | append (role content : String)
  | setContent (message_id : Int) (content : String)
  | backtrack (instructions : String) (at_message_id : Int)

/-- Apply one public history-tree operation; a raised `IndexError` /
`ValueError` leaves the state unchanged (the source raises before any
mutation). -/
def applyOp (st : AgentState) : TreeOp → AgentState
  | .append role content => (add_message st role content).1
  | .setContent mid content =>
    match set_message_content st mid content with
    | .ok st' => st'
    | .error _ => st
  | .backtrack instr atId =>
    match add_instructions_and_backtrack_core st instr atId with
    | .ok (_, st') => st'
    | .error _ => st

def applyOps (st : AgentState) (ops : List TreeOp) : AgentState :=
  ops.foldl applyOp st

/-! ## Concrete scenarios -/

/-- Model output of the end-to-end `finish` scenario (the `FinishLLM` test
stub). -/
def finishCallText : String :=
  "thinking...\n----BEGIN_FUNCTION_CALL----\nfinish\n----ARG----\nresult\ndone\n----END_FUNCTION_CALL----"

def finishLLM : String → String := fun _ => finishCallText

/-- A model whose output contains no recognizable markers. -/
def garbageLLM : String → String := fun _ => "I cannot decide what to do next."

/-- A registered `replace_in_file` capability that records its invocation
in its result (the real capability lives in the execution environment; the
guard claims are about the dispatcher, which must reject before any
capability runs). -/
def replace_in_file_stub : Tool :=
  { name := "replace_in_file", params := ["file_path", "from_line", "to_line", "content"],
    signatureStr := "(file_path: str, from_line: str, to_line: str, content: str)",
    docstring := "Replace a line range with the given content.",
    call := fun st args => .ok ("EDITED " ++ ((lookupArg args "file_path").getD ""), st) }

/-- Model output: an edit of `main.py` (lines 1-2) that was never preceded
by any inspection action. -/
def llmEditSmall : String → String := fun _ =>
  "editing now\n----BEGIN_FUNCTION_CALL----\nreplace_in_file\n----ARG----\nfile_path\nmain.py\n----ARG----\nfrom_line\n1\n----ARG----\nto_line\n2\n----ARG----\ncontent\npass\n----END_FUNCTION_CALL----"

/-- Model output: an edit of `main.py` spanning lines 1-300 (range 299,
far above the 120-line policy threshold). -/
def llmEditLarge : String → String := fun _ =>
  "editing now\n----BEGIN_FUNCTION_CALL----\nreplace_in_file\n----ARG----\nfile_path\nmain.py\n----ARG----\nfrom_line\n1\n----ARG----\nto_line\n300\n----ARG----\ncontent\npass\n----END_FUNCTION_CALL----"

def countRole (st : AgentState) (r : String) : Nat :=
  st.id_to_message.countP (fun m => m.role == r)

def countParseErrors (st : AgentState) : Nat :=
  st.id_to_message.countP
    (fun m => m.role == "tool" && startsWithStr m.content "Error parsing model output:")

/-! ## Facts about the string primitives -/

theorem startsWithL_nil_false {needle : List Char} (h : needle ≠ []) :
    startsWithL needle [] = false := by
  cases needle with
  | nil => exact absurd rfl h
  | cons c cs => rfl

theorem startsWithL_self_append (n t : List Char) : startsWithL n (n ++ t) = true := by
  induction n with
  | nil => rfl
  | cons c cs ih => simp [startsWithL, ih]

theorem startsWithL_length {n h : List Char} (hsw : startsWithL n h = true) :
    n.length ≤ h.length := by
  induction n generalizing h with
  | nil => simp
  | cons c cs ih =>
    cases h with
    | nil => simp [startsWithL] at hsw
    | cons d ds =>
      simp only [startsWithL, Bool.and_eq_true] at hsw
      simpa using ih hsw.2

theorem startsWithL_append_left {n x : List Char} (y : List Char)
    (hle : n.length ≤ x.length) : startsWithL n (x ++ y) = startsWithL n x := by
  induction n generalizing x with
  | nil => rfl
  | cons c cs ih =>
    cases x with
    | nil => simp at hle
    | cons d ds =>
      simp only [List.cons_append, startsWithL]
      simp only [List.length_cons, Nat.add_le_add_iff_right] at hle
      congr 1
      exact ih (by simpa using hle)

theorem drop_app_len (a b : List α) : (a ++ b).drop a.length = b := by
  simp

theorem take_app_len (a b : List α) : (a ++ b).take a.length = a := by
  simp

theorem drop_app_le {d : Nat} (a b : List α) (h : d ≤ a.length) :
    (a ++ b).drop d = a.drop d ++ b := by
  rw [List.drop_append_eq_append_drop, Nat.sub_eq_zero_of_le h, List.drop_zero]

theorem drop_app_ge {k : Nat} (a b : List α) (h : a.length ≤ k) :
    (a ++ b).drop k = b.drop (k - a.length) := by
  rw [List.drop_append_eq_append_drop, List.drop_eq_nil_of_le h, List.nil_append]

theorem take_app_le {d : Nat} (a b : List α) (h : d ≤ a.length) :
    (a ++ b).take d = a.take d := by
  rw [List.take_append_eq_append_take, Nat.sub_eq_zero_of_le h, List.take_zero,
    List.append_nil]

theorem rfindFrom_eq_some (needle hay : List Char) (j : Nat) :
    ∀ start, j ≤ start → startsWithL needle (hay.drop j) = true →
      (∀ k, j < k → k ≤ start → startsWithL needle (hay.drop k) = false) →
      rfindFrom needle hay start = some j := by
  intro start
  induction start with
  | zero =>
    intro hj hocc _
    have : j = 0 := Nat.le_zero.mp hj
    subst this
    simp only [List.drop_zero] at hocc
    simp [rfindFrom, hocc]
  | succ s ih =>
    intro hj hocc hno
    by_cases hj1 : j = s + 1
    · subst hj1
      simp [rfindFrom, hocc]
    · have hj2 : j ≤ s := by omega
      have hfalse := hno (s + 1) (by omega) (Nat.le_refl _)
      simp only [rfindFrom, hfalse, Bool.false_eq_true, if_false]
      exact ih hj2 hocc (fun k hk1 hk2 => hno k hk1 (by omega))

theorem rfindFrom_eq_none (needle hay : List Char) :
    ∀ start, (∀ k, k ≤ start → startsWithL needle (hay.drop k) = false) →
      rfindFrom needle hay start = none := by
  intro start
  induction start with
  | zero =>
    intro h
    have h0 := h 0 (Nat.le_refl _)
    simp only [List.drop_zero] at h0
    simp [rfindFrom, h0]
  | succ s ih =>
    intro h
    have hs := h (s + 1) (Nat.le_refl _)
    simp only [rfindFrom, hs, Bool.false_eq_true, if_false]
    exact ih (fun k hk => h k (by omega))

theorem pyRfind_locate (needle P s rest : List Char)
    (hcl : ∀ d, d < s.length → startsWithL needle ((needle ++ s).drop (d + 1)) = false) :
    pyRfind needle (P ++ needle ++ s ++ rest) (P.length + needle.length + s.length)
      = some P.length := by
  unfold pyRfind
  rw [if_neg (by omega)]
  have he : P.length + needle.length + s.length - needle.length = P.length + s.length := by omega
  rw [he]
  apply rfindFrom_eq_some
  · omega
  · have h1 : P ++ needle ++ s ++ rest = P ++ (needle ++ (s ++ rest)) := by
      simp [List.append_assoc]
    rw [h1, drop_app_len]
    exact startsWithL_self_append needle (s ++ rest)
  · intro k hk1 hk2
    have hrw : P ++ needle ++ s ++ rest = P ++ ((needle ++ s) ++ rest) := by
      simp [List.append_assoc]
    rw [hrw, drop_app_ge P _ (by omega)]
    have hd1 : 1 ≤ k - P.length := by omega
    have hd2 : k - P.length ≤ s.length := by omega
    rw [drop_app_le _ _ (by simp [List.length_append]; omega)]
    rw [startsWithL_append_left rest (by simp [List.length_drop, List.length_append]; omega)]
    have hc := hcl (k - P.length - 1) (by omega)
    have hdd : k - P.length - 1 + 1 = k - P.length := by omega
    rw [hdd] at hc
    exact hc

theorem pyRfind_eq_none (needle hay : List Char) (e : Nat)
    (hne : needle ≠ []) (he : e ≤ hay.length)
    (h : ∀ k, k < hay.length → startsWithL needle (hay.drop k) = false) :
    pyRfind needle hay e = none := by
  unfold pyRfind
  by_cases hlt : e < needle.length
  · rw [if_pos hlt]
  · rw [if_neg hlt]
    apply rfindFrom_eq_none
    intro k hk
    have hn1 : 1 ≤ needle.length := by
      cases needle with
      | nil => exact absurd rfl hne
      | cons c cs => simp
    exact h k (by omega)

/-- Master decomposition: in a text of the shape
`TH ++ BEGIN ++ inner ++ END ++ tail`, if the begin marker occurs in
`BEGIN ++ inner` only at offset 0 and the end marker occurs in
`END ++ tail` only at offset 0, then `parse` cuts exactly at the displayed
markers: the stripped `TH` is the thought and `inner` is the decoded body. -/
theorem parse_locate (TH inner tail : List Char)
    (hB : ∀ d, d < inner.length →
      startsWithL ResponseParser.BEGIN_CALL ((ResponseParser.BEGIN_CALL ++ inner).drop (d + 1)) = false)
    (hE : ∀ d, d < tail.length →
      startsWithL ResponseParser.END_CALL ((ResponseParser.END_CALL ++ tail).drop (d + 1)) = false) :
    ResponseParser.parse
        (TH ++ ResponseParser.BEGIN_CALL ++ inner ++ ResponseParser.END_CALL ++ tail)
      = ResponseParser.parseBody (pyStrip TH) inner := by
  have hend : pyRfind ResponseParser.END_CALL
      (TH ++ ResponseParser.BEGIN_CALL ++ inner ++ ResponseParser.END_CALL ++ tail)
      (TH ++ ResponseParser.BEGIN_CALL ++ inner ++ ResponseParser.END_CALL ++ tail).length
      = some (TH.length + ResponseParser.BEGIN_CALL.length + inner.length) := by
    have h := pyRfind_locate ResponseParser.END_CALL
      (TH ++ ResponseParser.BEGIN_CALL ++ inner) tail [] hE
    have hs : (TH ++ ResponseParser.BEGIN_CALL ++ inner) ++ ResponseParser.END_CALL ++ tail ++ []
        = TH ++ ResponseParser.BEGIN_CALL ++ inner ++ ResponseParser.END_CALL ++ tail := by
      simp [List.append_assoc]
    have hl : (TH ++ ResponseParser.BEGIN_CALL ++ inner).length
          + ResponseParser.END_CALL.length + tail.length
        = (TH ++ ResponseParser.BEGIN_CALL ++ inner ++ ResponseParser.END_CALL ++ tail).length := by
      simp [List.length_append] <;> omega
    have hv : (TH ++ ResponseParser.BEGIN_CALL ++ inner).length
        = TH.length + ResponseParser.BEGIN_CALL.length + inner.length := by
      simp [List.length_append] <;> omega
    rw [hs, hl, hv] at h
    exact h
  have hbegin : pyRfind ResponseParser.BEGIN_CALL
      (TH ++ ResponseParser.BEGIN_CALL ++ inner ++ ResponseParser.END_CALL ++ tail)
      (TH.length + ResponseParser.BEGIN_CALL.length + inner.length) = some TH.length := by
    have h := pyRfind_locate ResponseParser.BEGIN_CALL TH inner
      (ResponseParser.END_CALL ++ tail) hB
    have hs : TH ++ ResponseParser.BEGIN_CALL ++ inner ++ (ResponseParser.END_CALL ++ tail)
        = TH ++ ResponseParser.BEGIN_CALL ++ inner ++ ResponseParser.END_CALL ++ tail := by
      simp [List.append_assoc]
    rw [hs] at h
    exact h
  unfold ResponseParser.parse
  simp only [hend, hbegin]
  have htake1 : (TH ++ ResponseParser.BEGIN_CALL ++ inner
      ++ ResponseParser.END_CALL ++ tail).take TH.length = TH := by
    have h1 : TH ++ ResponseParser.BEGIN_CALL ++ inner ++ ResponseParser.END_CALL ++ tail
        = TH ++ (ResponseParser.BEGIN_CALL ++ inner ++ ResponseParser.END_CALL ++ tail) := by
      simp [List.append_assoc]
    rw [h1, take_app_len]
  have htake2 : (TH ++ ResponseParser.BEGIN_CALL ++ inner
        ++ ResponseParser.END_CALL ++ tail).take
        (TH.length + ResponseParser.BEGIN_CALL.length + inner.length)
      = TH ++ ResponseParser.BEGIN_CALL ++ inner := by
    have h1 : TH ++ ResponseParser.BEGIN_CALL ++ inner ++ ResponseParser.END_CALL ++ tail
        = (TH ++ ResponseParser.BEGIN_CALL ++ inner) ++ (ResponseParser.END_CALL ++ tail) := by
      simp [List.append_assoc]
    have h2 : TH.length + ResponseParser.BEGIN_CALL.length + inner.length
        = (TH ++ ResponseParser.BEGIN_CALL ++ inner).length := by
      simp [List.length_append] <;> omega
    rw [h1, h2, take_app_len]
  have hdrop : (TH ++ ResponseParser.BEGIN_CALL ++ inner).drop
      (TH.length + ResponseParser.BEGIN_CALL.length) = inner := by
    have h1 : TH ++ ResponseParser.BEGIN_CALL ++ inner
        = (TH ++ ResponseParser.BEGIN_CALL) ++ inner := by
      simp [List.append_assoc]
    have h2 : TH.length + ResponseParser.BEGIN_CALL.length
        = (TH ++ ResponseParser.BEGIN_CALL).length := by
      simp [List.length_append]
    rw [h1, h2, drop_app_len]
  rw [htake1, htake2, hdrop]

/-! ## Splitting on the argument separator -/

/-- `CleanPart sep p`: no occurrence of `sep` starts inside `p`, even an
occurrence that continues into an immediately following separator.  This is
the precise meaning of "the segment contains no stray separator" for the
splitting round-trip. -/
def CleanPart (sep p : List Char) : Prop :=
  ∀ j, j < p.length → startsWithL sep ((p ++ sep).drop j) = false

instance (sep p : List Char) : Decidable (CleanPart sep p) :=
  inferInstanceAs (Decidable (∀ j, j < p.length → startsWithL sep ((p ++ sep).drop j) = false))

theorem CleanPart_cons {sep : List Char} {c : Char} {cs : List Char}
    (h : CleanPart sep (c :: cs)) : CleanPart sep cs := by
  intro j hj
  have := h (j + 1) (by simpa using Nat.succ_lt_succ hj)
  simpa [List.cons_append] using this

/-- No occurrence of `sep` starting inside `p` continues into a separator
that immediately follows `p`. -/
theorem CleanPart_drop_mid {sep p : List Char} (h : CleanPart sep p) (rest : List Char)
    {j : Nat} (hj : j < p.length) :
    startsWithL sep ((p ++ sep ++ rest).drop j) = false := by
  have h1 : p ++ sep ++ rest = (p ++ sep) ++ rest := by simp [List.append_assoc]
  rw [h1, drop_app_le _ _ (by simp [List.length_append]; omega)]
  rw [startsWithL_append_left rest (by simp [List.length_drop, List.length_append]; omega)]
  exact h j hj

/-- A clean part contains no occurrence of `sep` at all. -/
theorem CleanPart_no_occ_within {sep p : List Char} (hne : sep ≠ [])
    (h : CleanPart sep p) (j : Nat) : startsWithL sep (p.drop j) = false := by
  have hn1 : 1 ≤ sep.length := by
    cases sep with
    | nil => exact absurd rfl hne
    | cons c cs => simp
  by_cases hfit : j + sep.length ≤ p.length
  · have hj : j < p.length := by omega
    have hcl := h j hj
    rw [drop_app_le _ _ (Nat.le_of_lt hj)] at hcl
    rw [startsWithL_append_left sep (by simp [List.length_drop]; omega)] at hcl
    exact hcl
  · by_contra hcontra
    have htrue : startsWithL sep (p.drop j) = true := by
      revert hcontra
      cases startsWithL sep (p.drop j) <;> simp
    have := startsWithL_length htrue
    simp [List.length_drop] at this
    omega

theorem firstOcc_of_startsWith {sep hay : List Char} (h : startsWithL sep hay = true) :
    firstOcc sep hay = some 0 := by
  cases hay with
  | nil => simp [firstOcc, h]
  | cons c cs => simp [firstOcc, h]

theorem firstOcc_locate (sep p rest : List Char) (hcl : CleanPart sep p) :
    firstOcc sep (p ++ sep ++ rest) = some p.length := by
  induction p with
  | nil =>
    have : ([] : List Char) ++ sep ++ rest = sep ++ rest := by simp
    rw [this]
    simpa using firstOcc_of_startsWith (startsWithL_self_append sep rest)
  | cons c cs ih =>
    have h0 : startsWithL sep ((c :: cs) ++ sep ++ rest) = false := by
      have := CleanPart_drop_mid hcl rest (j := 0) (by simp)
      simpa using this
    have hsplit : (c :: cs) ++ sep ++ rest = c :: (cs ++ sep ++ rest) := by simp
    rw [hsplit] at h0 ⊢
    simp only [firstOcc, h0, Bool.false_eq_true, if_false]
    rw [ih (CleanPart_cons hcl)]
    simp

theorem firstOcc_none_of_clean (sep p : List Char) (hne : sep ≠ [])
    (hcl : CleanPart sep p) : firstOcc sep p = none := by
  induction p with
  | nil => simp [firstOcc, startsWithL_nil_false hne]
  | cons c cs ih =>
    have h0 : startsWithL sep (c :: cs) = false := by
      have := CleanPart_no_occ_within hne hcl 0
      simpa using this
    simp only [firstOcc, h0, Bool.false_eq_true, if_false]
    rw [ih (CleanPart_cons hcl)]
    rfl

/-- Python's `sep.join`, specialised to how the wire format interleaves
segments between the markers. -/
def intercal (sep : List Char) : List (List Char) → List Char
  | [] => []
  | [p] => p
  | p :: q :: ps => p ++ sep ++ intercal sep (q :: ps)

theorem pySplitFuel_intercal (sep : List Char) (hne : sep ≠ []) :
    ∀ (parts : List (List Char)) (p0 : List Char), CleanPart sep p0 →
      (∀ p ∈ parts, CleanPart sep p) →
      ∀ fuel, (intercal sep (p0 :: parts)).length < fuel →
        pySplitFuel sep fuel (intercal sep (p0 :: parts)) = p0 :: parts := by
  intro parts
  induction parts with
  | nil =>
    intro p0 hp0 _ fuel hfuel
    cases fuel with
    | zero => omega
    | succ f =>
      simp only [intercal] at hfuel ⊢
      simp only [pySplitFuel, firstOcc_none_of_clean sep p0 hne hp0]
  | cons q ps ih =>
    intro p0 hp0 hps fuel hfuel
    cases fuel with
    | zero => omega
    | succ f =>
      have hsep1 : 1 ≤ sep.length := by
        cases sep with
        | nil => exact absurd rfl hne
        | cons c cs => simp
      simp only [intercal] at hfuel ⊢
      simp only [pySplitFuel, firstOcc_locate sep p0 (intercal sep (q :: ps)) hp0]
      have htake : (p0 ++ sep ++ intercal sep (q :: ps)).take p0.length = p0 := by
        have h1 : p0 ++ sep ++ intercal sep (q :: ps) = p0 ++ (sep ++ intercal sep (q :: ps)) := by
          simp [List.append_assoc]
        rw [h1, take_app_len]
      have hdrop : (p0 ++ sep ++ intercal sep (q :: ps)).drop (p0.length + sep.length)
          = intercal sep (q :: ps) := by
        have h1 : p0 ++ sep ++ intercal sep (q :: ps) = (p0 ++ sep) ++ intercal sep (q :: ps) := by
          simp [List.append_assoc]
        have h2 : p0.length + sep.length = (p0 ++ sep).length := by simp [List.length_append]
        rw [h1, h2, drop_app_len]
      rw [htake, hdrop]
      have hq : CleanPart sep q := hps q (by simp)
      have hps' : ∀ p ∈ ps, CleanPart sep p := fun p hp => hps p (by simp [hp])
      have hfuel' : (intercal sep (q :: ps)).length < f := by
        simp only [List.length_append] at hfuel
        omega
      rw [ih q hq hps' f hfuel']

theorem pySplit_intercal (sep : List Char) (hne : sep ≠ [])
    (p0 : List Char) (parts : List (List Char)) (hp0 : CleanPart sep p0)
    (hparts : ∀ p ∈ parts, CleanPart sep p) :
    pySplit sep (intercal sep (p0 :: parts)) = p0 :: parts := by
  exact pySplitFuel_intercal sep hne parts p0 hp0 hparts _ (Nat.lt_succ_self _)

/-! ## Decoding the argument blocks -/

/-- The wire form of one argument block: the text between two markers is a
newline, the argument-name line, a newline, then the literal value region
(everything up to the next marker). -/
def mkBlock (nv : List Char × List Char) : List Char :=
  '\n' :: nv.1 ++ '\n' :: nv.2

theorem pyStrip_eq_nil_iff (s : List Char) :
    pyStrip s = [] ↔ ∀ c ∈ s, isPySpace c = true := by
  unfold pyStrip
  rw [List.reverse_eq_nil_iff, List.dropWhile_eq_nil_iff]
  constructor
  · intro h c hc
    rcases List.mem_append.mp ((List.takeWhile_append_dropWhile (p := isPySpace) (l := s)) ▸ hc) with h1 | h1
    · exact List.mem_takeWhile_imp h1
    · exact h c (List.mem_reverse.mpr h1)
  · intro h c hc
    exact h c ((List.dropWhile_sublist _).subset (List.mem_reverse.mp hc))

theorem pyStrip_append_ne_nil {n : List Char} (rest : List Char)
    (h : pyStrip n ≠ []) : pyStrip (n ++ rest) ≠ [] := by
  intro hc
  apply h
  rw [pyStrip_eq_nil_iff] at hc ⊢
  exact fun c hcn => hc c (List.mem_append.mpr (Or.inl hcn))

theorem dropWhile_nl_mkBlock {n : List Char} (v : List Char)
    (hne : n ≠ []) (hnl : ∀ c ∈ n, ¬ c = '\n') :
    (mkBlock (n, v)).dropWhile (fun c => c = '\n') = n ++ '\n' :: v := by
  cases n with
  | nil => exact absurd rfl hne
  | cons c cs =>
    have hc : ¬ c = '\n' := hnl c (by simp)
    simp only [mkBlock, List.cons_append, List.dropWhile]
    simp [hc]

theorem findNL_append_nl {n : List Char} (v : List Char)
    (hnl : ∀ c ∈ n, ¬ c = '\n') : findNL (n ++ '\n' :: v) = some n.length := by
  induction n with
  | nil => simp [findNL]
  | cons c cs ih =>
    have hc : ¬ c = '\n' := hnl c (by simp)
    simp only [List.cons_append, findNL, hc, if_false, List.append_eq]
    rw [ih (fun d hd => hnl d (by simp [hd]))]
    rfl

/-- One well-formed block consumes into one `dictInsert`. -/
theorem parseArgBlocks_cons_good (nv : List Char × List Char)
    (rest : List (List Char)) (acc : List (List Char × List Char))
    (hn1 : pyStrip nv.1 ≠ []) (hn2 : ∀ c ∈ nv.1, ¬ c = '\n') :
    ResponseParser.parseArgBlocks (mkBlock nv :: rest) acc
      = ResponseParser.parseArgBlocks rest (dictInsert acc (pyStrip nv.1) (pyStrip nv.2)) := by
  have hne : nv.1 ≠ [] := by
    intro hc
    apply hn1
    rw [hc]
    rfl
  have hseg : (mkBlock nv).dropWhile (fun c => c = '\n') = nv.1 ++ '\n' :: nv.2 := by
    have := dropWhile_nl_mkBlock (n := nv.1) nv.2 hne hn2
    simpa using this
  have hstrip : ¬ pyStrip (nv.1 ++ '\n' :: nv.2) = [] := pyStrip_append_ne_nil _ hn1
  have hfind : findNL (nv.1 ++ '\n' :: nv.2) = some nv.1.length := findNL_append_nl nv.2 hn2
  have htake : (nv.1 ++ '\n' :: nv.2).take nv.1.length = nv.1 := take_app_len _ _
  have hdrop : (nv.1 ++ '\n' :: nv.2).drop (nv.1.length + 1) = nv.2 := by
    have h1 : nv.1 ++ '\n' :: nv.2 = (nv.1 ++ ['\n']) ++ nv.2 := by simp
    have h2 : nv.1.length + 1 = (nv.1 ++ ['\n']).length := by simp
    rw [h1, h2, drop_app_len]
  simp only [ResponseParser.parseArgBlocks, hseg, hstrip, if_false, hfind, htake, hdrop, hn1]

/-- The full block loop over well-formed blocks is the dict fold. -/
theorem parseArgBlocks_wire (pairs : List (List Char × List Char)) :
    ∀ acc, (∀ nv ∈ pairs, pyStrip nv.1 ≠ [] ∧ ∀ c ∈ nv.1, ¬ c = '\n') →
      ResponseParser.parseArgBlocks (pairs.map mkBlock) acc
        = .ok (pairs.foldl (fun d nv => dictInsert d (pyStrip nv.1) (pyStrip nv.2)) acc) := by
  induction pairs with
  | nil => intro acc _; rfl
  | cons nv rest ih =>
    intro acc h
    obtain ⟨hn1, hn2⟩ := h nv (by simp)
    rw [List.map_cons, parseArgBlocks_cons_good nv _ acc hn1 hn2]
    rw [ih _ (fun x hx => h x (by simp [hx]))]
    rfl

/-! ## Dict facts -/

theorem dictInsert_fresh (acc : List (List Char × List Char)) (k v : List Char)
    (h : ∀ kv ∈ acc, ¬ kv.1 = k) : dictInsert acc k v = acc ++ [(k, v)] := by
  induction acc with
  | nil => rfl
  | cons kv rest ih =>
    have hk : ¬ kv.1 = k := h kv (by simp)
    simp only [dictInsert, hk, if_false, List.cons_append]
    rw [ih (fun x hx => h x (by simp [hx]))]

theorem foldl_dictInsert_fresh (ps : List (List Char × List Char)) :
    ∀ acc, (∀ nv ∈ ps, ∀ kv ∈ acc, ¬ kv.1 = nv.1) → (ps.map Prod.fst).Nodup →
      ps.foldl (fun d nv => dictInsert d nv.1 nv.2) acc = acc ++ ps := by
  induction ps with
  | nil => intro acc _ _; simp
  | cons nv rest ih =>
    intro acc hfresh hnodup
    simp only [List.foldl_cons]
    rw [dictInsert_fresh acc nv.1 nv.2 (hfresh nv (by simp))]
    rw [ih (acc ++ [(nv.1, nv.2)]) ?_ ?_]
    · simp
    · intro x hx kv hkv
      rcases List.mem_append.mp hkv with h1 | h1
      · exact hfresh x (by simp [hx]) kv h1
      · simp only [List.mem_singleton] at h1
        subst h1
      -- kv = nv, so kv.1 = nv.1 must differ from x.1 since keys are nodup
        simp only [List.map_cons, List.nodup_cons] at hnodup
        intro hc
        exact hnodup.1 (hc ▸ List.mem_map_of_mem Prod.fst hx)
    · simp only [List.map_cons, List.nodup_cons] at hnodup
      exact hnodup.2

theorem dictLookup_insert_self (d : List (List Char × List Char)) (k v : List Char) :
    dictLookup (dictInsert d k v) k = some v := by
  induction d with
  | nil =>
    simp [dictInsert, dictLookup]
  | cons kv rest ih =>
    by_cases hk : kv.1 = k
    · simp only [dictInsert]
      rw [if_pos hk]
      simp [dictLookup]
    · simp only [dictInsert]
      rw [if_neg hk]
      simp only [dictLookup]
      rw [if_neg hk, ih]

theorem dictLookup_insert_ne (d : List (List Char × List Char)) (k v k' : List Char)
    (h : ¬ k' = k) : dictLookup (dictInsert d k v) k' = dictLookup d k' := by
  have hkk : ¬ k = k' := fun hc => h hc.symm
  induction d with
  | nil =>
    simp only [dictInsert, dictLookup]
    rw [if_neg hkk]
  | cons kv rest ih =>
    by_cases hk : kv.1 = k
    · have h1 : dictInsert (kv :: rest) k v = (k, v) :: rest := by
        simp only [dictInsert]
        rw [if_pos hk]
      rw [h1]
      simp only [dictLookup]
      rw [if_neg hkk, if_neg (fun hc => hkk (hk.symm.trans hc))]
    · have h1 : dictInsert (kv :: rest) k v = kv :: dictInsert rest k v := by
        simp only [dictInsert]
        rw [if_neg hk]
      rw [h1]
      simp only [dictLookup]
      by_cases hk' : kv.1 = k'
      · rw [if_pos hk', if_pos hk']
      · rw [if_neg hk', if_neg hk', ih]

theorem mem_keys_insert (d : List (List Char × List Char)) (k v x : List Char) :
    x ∈ dictKeys (dictInsert d k v) ↔ x = k ∨ x ∈ dictKeys d := by
  induction d with
  | nil => simp [dictInsert, dictKeys]
  | cons kv rest ih =>
    by_cases hk : kv.1 = k
    · have h1 : dictInsert (kv :: rest) k v = (k, v) :: rest := by
        simp only [dictInsert]
        rw [if_pos hk]
      rw [h1]
      simp only [dictKeys, List.map_cons, List.mem_cons, hk]
      tauto
    · have h1 : dictInsert (kv :: rest) k v = kv :: dictInsert rest k v := by
        simp only [dictInsert]
        rw [if_neg hk]
      rw [h1]
      simp only [dictKeys, List.map_cons, List.mem_cons] at ih ⊢
      rw [ih]
      tauto

theorem keysNodup_insert (d : List (List Char × List Char)) (k v : List Char)
    (h : (dictKeys d).Nodup) : (dictKeys (dictInsert d k v)).Nodup := by
  induction d with
  | nil => simp [dictInsert, dictKeys]
  | cons kv rest ih =>
    simp only [dictKeys, List.map_cons, List.nodup_cons] at h
    by_cases hk : kv.1 = k
    · have h1 : dictInsert (kv :: rest) k v = (k, v) :: rest := by
        simp only [dictInsert]
        rw [if_pos hk]
      rw [h1]
      simp only [dictKeys, List.map_cons, List.nodup_cons]
      exact ⟨hk ▸ h.1, h.2⟩
    · have h1 : dictInsert (kv :: rest) k v = kv :: dictInsert rest k v := by
        simp only [dictInsert]
        rw [if_neg hk]
      rw [h1]
      simp only [dictKeys, List.map_cons, List.nodup_cons]
      refine ⟨fun hc => ?_, ih h.2⟩
      rcases (mem_keys_insert rest k v kv.1).mp hc with h2 | h2
      · exact hk h2
      · exact h.1 h2

theorem mem_keys_foldl (ps : List (List Char × List Char)) :
    ∀ acc k, (k ∈ dictKeys acc ∨ k ∈ ps.map Prod.fst) →
      k ∈ dictKeys (ps.foldl (fun d nv => dictInsert d nv.1 nv.2) acc) := by
  induction ps with
  | nil =>
    intro acc k h
    simpa using h.resolve_right (by simp)
  | cons nv rest ih =>
    intro acc k h
    rw [List.foldl_cons]
    apply ih
    simp only [List.map_cons, List.mem_cons] at h
    rcases h with h | h | h
    · left
      rw [mem_keys_insert]
      right
      exact h
    · left
      rw [mem_keys_insert]
      left
      exact h
    · right
      exact h

theorem keysNodup_foldl (ps : List (List Char × List Char)) :
    ∀ acc, (dictKeys acc).Nodup →
      (dictKeys (ps.foldl (fun d nv => dictInsert d nv.1 nv.2) acc)).Nodup := by
  induction ps with
  | nil => intro acc h; simpa using h
  | cons nv rest ih =>
    intro acc h
    rw [List.foldl_cons]
    exact ih _ (keysNodup_insert acc nv.1 nv.2 h)

theorem lastAssoc_foldl_acc (ps : List (List Char × List Char)) (k : List Char) :
    ∀ acc : Option (List Char),
      ps.foldl (fun a nv => if nv.1 = k then some nv.2 else a) acc
        = match ps.foldl (fun a nv => if nv.1 = k then some nv.2 else a) none with
          | some v => some v
          | none => acc := by
  induction ps with
  | nil => intro acc; rfl
  | cons nv rest ih =>
    intro acc
    rw [List.foldl_cons, List.foldl_cons, ih, ih (if nv.1 = k then some nv.2 else none)]
    cases hcase : rest.foldl (fun a nv => if nv.1 = k then some nv.2 else a) none with
    | some v => rfl
    | none =>
      by_cases hk : nv.1 = k
      · rw [if_pos hk, if_pos hk]
      · rw [if_neg hk, if_neg hk]

theorem dictLookup_foldl (ps : List (List Char × List Char)) :
    ∀ acc k,
      dictLookup (ps.foldl (fun d nv => dictInsert d nv.1 nv.2) acc) k
        = match lastAssoc ps k with
          | some v => some v
          | none => dictLookup acc k := by
  induction ps with
  | nil => intro acc k; rfl
  | cons nv rest ih =>
    intro acc k
    rw [List.foldl_cons, ih]
    have hR : lastAssoc (nv :: rest) k
        = match lastAssoc rest k with
          | some v => some v
          | none => if nv.1 = k then some nv.2 else none := by
      unfold lastAssoc
      rw [List.foldl_cons]
      exact lastAssoc_foldl_acc rest k _
    rw [hR]
    cases hcase : lastAssoc rest k with
    | some v => rfl
    | none =>
      by_cases hk : nv.1 = k
      · rw [if_pos hk, ← hk, dictLookup_insert_self]
      · rw [if_neg hk, dictLookup_insert_ne acc nv.1 nv.2 k (fun hc => hk hc.symm)]

theorem countP_key_eq_zero {α : Type} [DecidableEq α] (l : List α) (k : α) (h : k ∉ l) :
    l.countP (fun x => x = k) = 0 := by
  induction l with
  | nil => rfl
  | cons x xs ih =>
    have hx : ¬ (x = k) := fun hc => h (hc ▸ List.mem_cons_self x xs)
    rw [List.countP_cons_of_neg _ _ (by simpa using hx)]
    exact ih (fun hc => h (List.mem_cons_of_mem x hc))

theorem countP_key_eq_one {α : Type} [DecidableEq α] (l : List α) (k : α)
    (hnodup : l.Nodup) (hmem : k ∈ l) : l.countP (fun x => x = k) = 1 := by
  induction l with
  | nil => simp at hmem
  | cons x xs ih =>
    rw [List.nodup_cons] at hnodup
    by_cases hx : x = k
    · rw [List.countP_cons_of_pos _ _ (by simpa using hx)]
      rw [countP_key_eq_zero xs k (hx ▸ hnodup.1)]
    · rw [List.countP_cons_of_neg _ _ (by simpa using hx)]
      refine ih hnodup.2 ?_
      rcases List.mem_cons.mp hmem with hc | hc
      · exact absurd hc.symm hx
      · exact hc

theorem countKey_foldl_eq_one (ps : List (List Char × List Char)) (k : List Char)
    (hmem : k ∈ ps.map Prod.fst) :
    countKey (ps.foldl (fun d nv => dictInsert d nv.1 nv.2) []) k = 1 := by
  have hnodup := keysNodup_foldl ps [] (by simp [dictKeys])
  have hk := mem_keys_foldl ps [] k (Or.inr hmem)
  exact countP_key_eq_one _ k hnodup hk

/-- Strip the name and value of one wire pair the way `parse` does. -/
def stripPair (nv : List Char × List Char) : List Char × List Char :=
  (pyStrip nv.1, pyStrip nv.2)

/-- Full decoding of a well-formed wire text: the text before the begin
marker (stripped) is the thought, the first segment (stripped) is the
function name, and the argument mapping is the dict fold of the
(name, value) pairs with both components stripped. -/
theorem parse_wire (TH fnPart tail : List Char) (pairs : List (List Char × List Char))
    (hfnClean : CleanPart ResponseParser.ARG_SEP fnPart)
    (hfn : pyStrip fnPart ≠ [])
    (hblocks : ∀ nv ∈ pairs, pyStrip nv.1 ≠ [] ∧ (∀ c ∈ nv.1, ¬ c = '\n')
      ∧ CleanPart ResponseParser.ARG_SEP (mkBlock nv))
    (hB : ∀ d, d < (intercal ResponseParser.ARG_SEP (fnPart :: pairs.map mkBlock)).length →
      startsWithL ResponseParser.BEGIN_CALL
        ((ResponseParser.BEGIN_CALL ++ intercal ResponseParser.ARG_SEP (fnPart :: pairs.map mkBlock)).drop (d + 1)) = false)
    (hE : ∀ d, d < tail.length →
      startsWithL ResponseParser.END_CALL ((ResponseParser.END_CALL ++ tail).drop (d + 1)) = false) :
    ResponseParser.parse
        (TH ++ ResponseParser.BEGIN_CALL
          ++ intercal ResponseParser.ARG_SEP (fnPart :: pairs.map mkBlock)
          ++ ResponseParser.END_CALL ++ tail)
      = .ok ⟨pyStrip TH, pyStrip fnPart,
          (pairs.map stripPair).foldl (fun d nv => dictInsert d nv.1 nv.2) []⟩ := by
  rw [parse_locate _ _ _ hB hE]
  unfold ResponseParser.parseBody
  have hsep : ResponseParser.ARG_SEP ≠ [] := by decide
  rw [pySplit_intercal ResponseParser.ARG_SEP hsep fnPart (pairs.map mkBlock) hfnClean
    (by
      intro p hp
      rcases List.mem_map.mp hp with ⟨nv, hnv, hmk⟩
      exact hmk ▸ (hblocks nv hnv).2.2)]
  simp only [hfn, if_false]
  rw [parseArgBlocks_wire pairs [] (fun nv hnv => ⟨(hblocks nv hnv).1, (hblocks nv hnv).2.1⟩)]
  rw [List.foldl_map]
  rfl

/-! ## Claim C3 -/

/-- C3: for a text containing two complete begin/end marker pairs, `parse`
extracts the function name and arguments only from the last (rightmost)
pair: it locates the last end marker, then the last begin marker before it,
and everything before that begin marker (whitespace-stripped) becomes the
thought.  The decoded result `parseBody … n2` depends only on the second
pair's body `n2`; the first pair's body `n1` ends up inside the thought.
Hypotheses: the begin marker occurs in `BEGIN ++ n2` only at offset 0 and
the end marker occurs in `END ++ tail` only at offset 0 (otherwise the text
would contain a third marker and the pair count would differ). -/
theorem parse_uses_rightmost_markers (th1 n1 th2 n2 tail : List Char)
    (hB : ∀ d, d < n2.length →
      startsWithL ResponseParser.BEGIN_CALL ((ResponseParser.BEGIN_CALL ++ n2).drop (d + 1)) = false)
    (hE : ∀ d, d < tail.length →
      startsWithL ResponseParser.END_CALL ((ResponseParser.END_CALL ++ tail).drop (d + 1)) = false) :
    ResponseParser.parse
        (th1 ++ ResponseParser.BEGIN_CALL ++ n1 ++ ResponseParser.END_CALL ++ th2
          ++ ResponseParser.BEGIN_CALL ++ n2 ++ ResponseParser.END_CALL ++ tail)
      = ResponseParser.parseBody
          (pyStrip (th1 ++ ResponseParser.BEGIN_CALL ++ n1 ++ ResponseParser.END_CALL ++ th2))
          n2 := by
  have h := parse_locate
    (th1 ++ ResponseParser.BEGIN_CALL ++ n1 ++ ResponseParser.END_CALL ++ th2) n2 tail hB hE
  have hs : (th1 ++ ResponseParser.BEGIN_CALL ++ n1 ++ ResponseParser.END_CALL ++ th2)
        ++ ResponseParser.BEGIN_CALL ++ n2 ++ ResponseParser.END_CALL ++ tail
      = th1 ++ ResponseParser.BEGIN_CALL ++ n1 ++ ResponseParser.END_CALL ++ th2
        ++ ResponseParser.BEGIN_CALL ++ n2 ++ ResponseParser.END_CALL ++ tail := by
    simp [List.append_assoc]
  rw [hs] at h
  exact h

/-- Witness for C3 at a concrete two-pair text. -/
theorem parse_uses_rightmost_markers_witness :
    (∀ d, d < ("\nsecond\n".toList).length →
      startsWithL ResponseParser.BEGIN_CALL
        ((ResponseParser.BEGIN_CALL ++ "\nsecond\n".toList).drop (d + 1)) = false)
    ∧ ResponseParser.parse
        ("quoting the protocol: ".toList ++ ResponseParser.BEGIN_CALL ++ "\nfirst\n".toList
          ++ ResponseParser.END_CALL ++ "\nnow for real:\n".toList
          ++ ResponseParser.BEGIN_CALL ++ "\nsecond\n".toList ++ ResponseParser.END_CALL ++ [])
      = ResponseParser.parseBody
          (pyStrip ("quoting the protocol: ".toList ++ ResponseParser.BEGIN_CALL
            ++ "\nfirst\n".toList ++ ResponseParser.END_CALL ++ "\nnow for real:\n".toList))
          "\nsecond\n".toList :=
  ⟨by decide,
    parse_uses_rightmost_markers "quoting the protocol: ".toList "\nfirst\n".toList
      "\nnow for real:\n".toList "\nsecond\n".toList [] (by decide) (by decide)⟩

/-! ## Claim C4 -/

/-- Modelled from the spec: "trimmed of leading/trailing blank lines" —
split into newline-separated lines, drop whitespace-only lines at both
ends, keep everything else (including leading/trailing spaces of the
remaining lines) verbatim. -/
def trimBlankLines (s : List Char) : List Char :=
  let ls := pySplit ['\n'] s
  intercal ['\n']
    (((ls.dropWhile (fun l => (pyStrip l).isEmpty)).reverse.dropWhile
        (fun l => (pyStrip l).isEmpty)).reverse)

/-- A well-formed one-argument call whose value line starts with two
spaces. -/
def c4Text : String :=
  "t\n----BEGIN_FUNCTION_CALL----\nf\n----ARG----\na\n  x\n----END_FUNCTION_CALL----"

/-- C4 counterexample: the source strips each value with Python `strip()`,
which also removes leading/trailing spaces and tabs of the first/last
value line — strictly more than trimming blank lines.  Here the literal
value region is `"  x\n"`; trimming only blank lines keeps `"  x"`, but
`parse` returns `"x"`. -/
theorem parse_value_trim_counterexample :
    (ResponseParser.parse c4Text.toList).map (fun a => dictLookup a.arguments "a".toList)
        = .ok (some "x".toList)
    ∧ trimBlankLines "  x\n".toList = "  x".toList
    ∧ ("  x".toList : List Char) ≠ "x".toList := by
  refine ⟨by rfl, by rfl, by decide⟩

/-- C4 (amended): for a well-formed protocol text with `N` argument blocks
with pairwise-distinct (stripped) names, `parse` yields exactly `N`
entries, each value equal to the literal text between its name line and
the next marker trimmed of leading and trailing whitespace (Python
`strip()`), with internal formatting preserved verbatim. -/
theorem parse_roundtrip_strip (TH fnPart : List Char) (pairs : List (List Char × List Char))
    (hfnClean : CleanPart ResponseParser.ARG_SEP fnPart)
    (hfn : pyStrip fnPart ≠ [])
    (hblocks : ∀ nv ∈ pairs, pyStrip nv.1 ≠ [] ∧ (∀ c ∈ nv.1, ¬ c = '\n')
      ∧ CleanPart ResponseParser.ARG_SEP (mkBlock nv))
    (hnodup : (pairs.map (fun nv => pyStrip nv.1)).Nodup)
    (hB : ∀ d, d < (intercal ResponseParser.ARG_SEP (fnPart :: pairs.map mkBlock)).length →
      startsWithL ResponseParser.BEGIN_CALL
        ((ResponseParser.BEGIN_CALL ++ intercal ResponseParser.ARG_SEP (fnPart :: pairs.map mkBlock)).drop (d + 1)) = false) :
    ResponseParser.parse
        (TH ++ ResponseParser.BEGIN_CALL
          ++ intercal ResponseParser.ARG_SEP (fnPart :: pairs.map mkBlock)
          ++ ResponseParser.END_CALL)
      = .ok ⟨pyStrip TH, pyStrip fnPart, pairs.map stripPair⟩
    ∧ (pairs.map stripPair).length = pairs.length := by
  constructor
  · have h := parse_wire TH fnPart [] pairs hfnClean hfn hblocks hB
      (fun d hd => absurd hd (by simp))
    rw [List.append_nil] at h
    rw [h]
    have hkeys : ((pairs.map stripPair).map Prod.fst).Nodup := by
      rw [List.map_map]
      exact hnodup
    rw [foldl_dictInsert_fresh (pairs.map stripPair) [] (by simp) hkeys]
    rw [List.nil_append]
  · exact List.length_map pairs stripPair

/-- Witness for C4 (amended) at a concrete two-argument text. -/
theorem parse_roundtrip_strip_witness :
    CleanPart ResponseParser.ARG_SEP "\nmyfn\n".toList
    ∧ ResponseParser.parse
        ("th".toList ++ ResponseParser.BEGIN_CALL
          ++ intercal ResponseParser.ARG_SEP
              ("\nmyfn\n".toList :: [("cmd".toList, " ls -la \n".toList),
                ("body".toList, "\n  line1\n  line2\n".toList)].map mkBlock)
          ++ ResponseParser.END_CALL)
        = .ok ⟨pyStrip "th".toList, pyStrip "\nmyfn\n".toList,
            [("cmd".toList, " ls -la \n".toList),
              ("body".toList, "\n  line1\n  line2\n".toList)].map stripPair⟩
      ∧ ([("cmd".toList, " ls -la \n".toList),
          ("body".toList, "\n  line1\n  line2\n".toList)].map stripPair).length
        = ([("cmd".toList, " ls -la \n".toList),
            ("body".toList, "\n  line1\n  line2\n".toList)] : List (List Char × List Char)).length :=
  ⟨by decide,
    parse_roundtrip_strip "th".toList "\nmyfn\n".toList
      [("cmd".toList, " ls -la \n".toList), ("body".toList, "\n  line1\n  line2\n".toList)]
      (by decide) (by decide) (by decide) (by decide) (by decide)⟩

/-! ## Claim C10 -/

/-- C10: when two or more argument blocks declare the same (stripped)
name, `parse` succeeds; the mapping keeps a single entry for that name
whose value is the value of the last (rightmost) such block — earlier
values are discarded.  `lastAssoc` picks the rightmost matching pair of
the written block sequence. -/
theorem parse_duplicate_name_last_wins (TH fnPart : List Char)
    (pairs : List (List Char × List Char)) (nk : List Char)
    (hfnClean : CleanPart ResponseParser.ARG_SEP fnPart)
    (hfn : pyStrip fnPart ≠ [])
    (hblocks : ∀ nv ∈ pairs, pyStrip nv.1 ≠ [] ∧ (∀ c ∈ nv.1, ¬ c = '\n')
      ∧ CleanPart ResponseParser.ARG_SEP (mkBlock nv))
    (hB : ∀ d, d < (intercal ResponseParser.ARG_SEP (fnPart :: pairs.map mkBlock)).length →
      startsWithL ResponseParser.BEGIN_CALL
        ((ResponseParser.BEGIN_CALL ++ intercal ResponseParser.ARG_SEP (fnPart :: pairs.map mkBlock)).drop (d + 1)) = false)
    (hdup : 2 ≤ (pairs.map (fun nv => pyStrip nv.1)).countP (fun x => x = nk)) :
    ResponseParser.parse
        (TH ++ ResponseParser.BEGIN_CALL
          ++ intercal ResponseParser.ARG_SEP (fnPart :: pairs.map mkBlock)
          ++ ResponseParser.END_CALL)
      = .ok ⟨pyStrip TH, pyStrip fnPart,
          (pairs.map stripPair).foldl (fun d nv => dictInsert d nv.1 nv.2) []⟩
    ∧ countKey ((pairs.map stripPair).foldl (fun d nv => dictInsert d nv.1 nv.2) []) nk = 1
    ∧ dictLookup ((pairs.map stripPair).foldl (fun d nv => dictInsert d nv.1 nv.2) []) nk
      = lastAssoc (pairs.map stripPair) nk := by
  have hmem : nk ∈ (pairs.map stripPair).map Prod.fst := by
    rw [List.map_map]
    by_contra hc
    have h0 : (pairs.map (Prod.fst ∘ stripPair)).countP (fun x => x = nk) = 0 :=
      countP_key_eq_zero _ nk hc
    have heq : pairs.map (Prod.fst ∘ stripPair) = pairs.map (fun nv => pyStrip nv.1) := by
      simp [Function.comp, stripPair]
    rw [heq] at h0
    omega
  refine ⟨?_, countKey_foldl_eq_one _ nk hmem, ?_⟩
  · have h := parse_wire TH fnPart [] pairs hfnClean hfn hblocks hB
      (fun d hd => absurd hd (by simp))
    rw [List.append_nil] at h
    exact h
  · rw [dictLookup_foldl (pairs.map stripPair) [] nk]
    cases hcase : lastAssoc (pairs.map stripPair) nk with
    | some v => rfl
    | none => rfl

/-- Witness for C10: two blocks both named `a`; the entry keeps the second
value. -/
theorem parse_duplicate_name_last_wins_witness :
    (2 ≤ (([("a".toList, "one\n".toList), ("a".toList, "two\n".toList)]
        : List (List Char × List Char)).map (fun nv => pyStrip nv.1)).countP
          (fun x => x = "a".toList))
    ∧ (ResponseParser.parse
        ("th".toList ++ ResponseParser.BEGIN_CALL
          ++ intercal ResponseParser.ARG_SEP
              ("\nf\n".toList :: [("a".toList, "one\n".toList), ("a".toList, "two\n".toList)].map mkBlock)
          ++ ResponseParser.END_CALL)
        = .ok ⟨pyStrip "th".toList, pyStrip "\nf\n".toList,
            ([("a".toList, "one\n".toList), ("a".toList, "two\n".toList)].map stripPair).foldl
              (fun d nv => dictInsert d nv.1 nv.2) []⟩
      ∧ countKey (([("a".toList, "one\n".toList), ("a".toList, "two\n".toList)].map stripPair).foldl
            (fun d nv => dictInsert d nv.1 nv.2) []) "a".toList = 1
      ∧ dictLookup (([("a".toList, "one\n".toList), ("a".toList, "two\n".toList)].map stripPair).foldl
            (fun d nv => dictInsert d nv.1 nv.2) []) "a".toList
        = lastAssoc ([("a".toList, "one\n".toList), ("a".toList, "two\n".toList)].map stripPair)
            "a".toList) :=
  ⟨by decide,
    parse_duplicate_name_last_wins "th".toList "\nf\n".toList
      [("a".toList, "one\n".toList), ("a".toList, "two\n".toList)] "a".toList
      (by decide) (by decide) (by decide) (by decide) (by decide)⟩

/-! ## Claim C5 -/

theorem dropWhile_nl_eq_self {seg : List Char} (h : ∀ c ∈ seg, ¬ c = '\n') :
    seg.dropWhile (fun c => c = '\n') = seg := by
  cases seg with
  | nil => rfl
  | cons c cs =>
    rw [List.dropWhile_cons]
    simp [h c (by simp)]

theorem findNL_eq_none {seg : List Char} (h : ∀ c ∈ seg, ¬ c = '\n') :
    findNL seg = none := by
  induction seg with
  | nil => rfl
  | cons c cs ih =>
    simp only [findNL, h c (by simp), if_false]
    rw [ih (fun d hd => h d (by simp [hd]))]
    rfl

/-- C5: each malformation is reported through its own catchable error and
`parse` returns no (partial) `Action` in those cases — the return type
`Except` makes an error and a result mutually exclusive; whereas a
whitespace-only argument segment is silently skipped and is not an error.
The conjuncts: (1) no end marker anywhere — "Missing END_FUNCTION_CALL
delimiter"; (2) an end marker but no begin marker anywhere before it —
"Missing BEGIN_FUNCTION_CALL delimiter"; (3) whitespace-only body —
"Malformed function call: missing function name"; (4) an argument segment
with no line break — "Malformed argument block: expected name and value";
(5) a whitespace-only argument segment parses fine with no entries;
(6) the four error texts are pairwise distinct. -/
theorem parse_failure_modes :
    (∀ t : List Char,
      (∀ j, j < t.length → startsWithL ResponseParser.END_CALL (t.drop j) = false) →
      ResponseParser.parse t = .error "Missing END_FUNCTION_CALL delimiter")
    ∧ (∀ a : List Char,
      (∀ j, j < a.length + ResponseParser.END_CALL.length →
        startsWithL ResponseParser.BEGIN_CALL ((a ++ ResponseParser.END_CALL).drop j) = false) →
      ResponseParser.parse (a ++ ResponseParser.END_CALL)
        = .error "Missing BEGIN_FUNCTION_CALL delimiter")
    ∧ (∀ th body : List Char, (∀ c ∈ body, isPySpace c = true) →
      CleanPart ResponseParser.ARG_SEP body →
      (∀ d, d < body.length →
        startsWithL ResponseParser.BEGIN_CALL
          ((ResponseParser.BEGIN_CALL ++ body).drop (d + 1)) = false) →
      ResponseParser.parse (th ++ ResponseParser.BEGIN_CALL ++ body ++ ResponseParser.END_CALL)
        = .error "Malformed function call: missing function name")
    ∧ (∀ th fnPart seg : List Char, pyStrip fnPart ≠ [] →
      CleanPart ResponseParser.ARG_SEP fnPart → CleanPart ResponseParser.ARG_SEP seg →
      (∀ c ∈ seg, ¬ c = '\n') → pyStrip seg ≠ [] →
      (∀ d, d < (fnPart ++ ResponseParser.ARG_SEP ++ seg).length →
        startsWithL ResponseParser.BEGIN_CALL
          ((ResponseParser.BEGIN_CALL ++ (fnPart ++ ResponseParser.ARG_SEP ++ seg)).drop (d + 1)) = false) →
      ResponseParser.parse
          (th ++ ResponseParser.BEGIN_CALL ++ (fnPart ++ ResponseParser.ARG_SEP ++ seg)
            ++ ResponseParser.END_CALL)
        = .error "Malformed argument block: expected name and value")
    ∧ (∀ th fnPart seg : List Char, pyStrip fnPart ≠ [] →
      CleanPart ResponseParser.ARG_SEP fnPart → CleanPart ResponseParser.ARG_SEP seg →
      (∀ c ∈ seg, isPySpace c = true) →
      (∀ d, d < (fnPart ++ ResponseParser.ARG_SEP ++ seg).length →
        startsWithL ResponseParser.BEGIN_CALL
          ((ResponseParser.BEGIN_CALL ++ (fnPart ++ ResponseParser.ARG_SEP ++ seg)).drop (d + 1)) = false) →
      ResponseParser.parse
          (th ++ ResponseParser.BEGIN_CALL ++ (fnPart ++ ResponseParser.ARG_SEP ++ seg)
            ++ ResponseParser.END_CALL)
        = .ok ⟨pyStrip th, pyStrip fnPart, []⟩)
    ∧ (("Missing END_FUNCTION_CALL delimiter" : String) ≠ "Missing BEGIN_FUNCTION_CALL delimiter"
      ∧ ("Missing END_FUNCTION_CALL delimiter" : String) ≠ "Malformed function call: missing function name"
      ∧ ("Missing END_FUNCTION_CALL delimiter" : String) ≠ "Malformed argument block: expected name and value"
      ∧ ("Missing BEGIN_FUNCTION_CALL delimiter" : String) ≠ "Malformed function call: missing function name"
      ∧ ("Missing BEGIN_FUNCTION_CALL delimiter" : String) ≠ "Malformed argument block: expected name and value"
      ∧ ("Malformed function call: missing function name" : String) ≠ "Malformed argument block: expected name and value") := by
  refine ⟨?_, ?_, ?_, ?_, ?_, by decide⟩
  · -- (1) missing end marker
    intro t h
    have h0 : pyRfind ResponseParser.END_CALL t t.length = none :=
      pyRfind_eq_none _ t t.length (by decide) (Nat.le_refl _) h
    unfold ResponseParser.parse
    simp only [h0]
  · -- (2) missing begin marker before the end marker
    intro a h
    have hend : pyRfind ResponseParser.END_CALL (a ++ ResponseParser.END_CALL)
        (a ++ ResponseParser.END_CALL).length = some a.length := by
      have h0 := pyRfind_locate ResponseParser.END_CALL a [] []
        (fun d hd => absurd hd (by simp))
      have hs : a ++ ResponseParser.END_CALL ++ [] ++ [] = a ++ ResponseParser.END_CALL := by
        simp
      have hl : a.length + ResponseParser.END_CALL.length + ([] : List Char).length
          = (a ++ ResponseParser.END_CALL).length := by
        simp [List.length_append]
      rw [hs, hl] at h0
      exact h0
    have hbegin : pyRfind ResponseParser.BEGIN_CALL (a ++ ResponseParser.END_CALL) a.length
        = none := by
      apply pyRfind_eq_none _ _ _ (by decide) (by simp [List.length_append])
      intro k hk
      exact h k (by simpa [List.length_append] using hk)
    unfold ResponseParser.parse
    simp only [hend, hbegin]
  · -- (3) empty function name
    intro th body hws hclean hB
    have h := parse_locate th body [] hB (fun d hd => absurd hd (by simp))
    rw [List.append_nil] at h
    rw [h]
    unfold ResponseParser.parseBody
    have hsplit : pySplit ResponseParser.ARG_SEP body = [body] := by
      have h0 := pySplit_intercal ResponseParser.ARG_SEP (by decide) body [] hclean (by simp)
      simpa [intercal] using h0
    rw [hsplit]
    have hnil : pyStrip body = [] := (pyStrip_eq_nil_iff body).mpr hws
    simp only [hnil, if_pos]
  · -- (4) argument segment with no separating line break
    intro th fnPart seg hfn hcf hcs hnl hstrip hB
    have h := parse_locate th (fnPart ++ ResponseParser.ARG_SEP ++ seg) [] hB
      (fun d hd => absurd hd (by simp))
    rw [List.append_nil] at h
    rw [h]
    unfold ResponseParser.parseBody
    have hsplit : pySplit ResponseParser.ARG_SEP (fnPart ++ ResponseParser.ARG_SEP ++ seg)
        = [fnPart, seg] := by
      have h0 := pySplit_intercal ResponseParser.ARG_SEP (by decide) fnPart [seg] hcf
        (by
          intro p hp
          rw [List.mem_singleton] at hp
          exact hp ▸ hcs)
      simpa [intercal] using h0
    rw [hsplit]
    simp only [hfn, if_false]
    unfold ResponseParser.parseArgBlocks
    rw [dropWhile_nl_eq_self hnl]
    simp only [hstrip, if_false]
    rw [findNL_eq_none hnl]
  · -- (5) whitespace-only segment is skipped, not an error
    intro th fnPart seg hfn hcf hcs hws hB
    have h := parse_locate th (fnPart ++ ResponseParser.ARG_SEP ++ seg) [] hB
      (fun d hd => absurd hd (by simp))
    rw [List.append_nil] at h
    rw [h]
    unfold ResponseParser.parseBody
    have hsplit : pySplit ResponseParser.ARG_SEP (fnPart ++ ResponseParser.ARG_SEP ++ seg)
        = [fnPart, seg] := by
      have h0 := pySplit_intercal ResponseParser.ARG_SEP (by decide) fnPart [seg] hcf
        (by
          intro p hp
          rw [List.mem_singleton] at hp
          exact hp ▸ hcs)
      simpa [intercal] using h0
    rw [hsplit]
    simp only [hfn, if_false]
    unfold ResponseParser.parseArgBlocks
    have hseg0 : pyStrip (seg.dropWhile (fun c => c = '\n')) = [] := by
      rw [pyStrip_eq_nil_iff]
      intro c hc
      exact hws c ((List.dropWhile_sublist _).subset hc)
    simp only [hseg0, if_pos]
    rfl

/-- Witness for C5: each failure mode (and the skip mode) exercised at a
concrete input. -/
theorem parse_failure_modes_witness :
    (∀ j, j < ("no markers at all".toList).length →
      startsWithL ResponseParser.END_CALL (("no markers at all".toList).drop j) = false)
    ∧ ResponseParser.parse "no markers at all".toList
        = .error "Missing END_FUNCTION_CALL delimiter"
    ∧ ResponseParser.parse ("thought only\n".toList ++ ResponseParser.END_CALL)
        = .error "Missing BEGIN_FUNCTION_CALL delimiter"
    ∧ ResponseParser.parse
        ("x".toList ++ ResponseParser.BEGIN_CALL ++ " \n ".toList ++ ResponseParser.END_CALL)
        = .error "Malformed function call: missing function name"
    ∧ ResponseParser.parse
        ("x".toList ++ ResponseParser.BEGIN_CALL
          ++ ("\nf\n".toList ++ ResponseParser.ARG_SEP ++ "noline".toList)
          ++ ResponseParser.END_CALL)
        = .error "Malformed argument block: expected name and value"
    ∧ ResponseParser.parse
        ("x".toList ++ ResponseParser.BEGIN_CALL
          ++ ("\nf\n".toList ++ ResponseParser.ARG_SEP ++ " \n ".toList)
          ++ ResponseParser.END_CALL)
        = .ok ⟨pyStrip "x".toList, pyStrip "\nf\n".toList, []⟩ :=
  ⟨by decide,
    parse_failure_modes.1 "no markers at all".toList (by decide),
    parse_failure_modes.2.1 "thought only\n".toList (by decide),
    parse_failure_modes.2.2.1 "x".toList " \n ".toList (by decide) (by decide) (by decide),
    parse_failure_modes.2.2.2.1 "x".toList "\nf\n".toList "noline".toList
      (by decide) (by decide) (by decide) (by decide) (by decide) (by decide),
    parse_failure_modes.2.2.2.2.1 "x".toList "\nf\n".toList " \n ".toList
      (by decide) (by decide) (by decide) (by decide) (by decide)⟩

/-! ## Structural invariants of the message tree -/

theorem modifyNth_length (l : List α) (i : Nat) (f : α → α) :
    (modifyNth l i f).length = l.length := by
  induction l generalizing i with
  | nil => rfl
  | cons x xs ih =>
    cases i with
    | zero => rfl
    | succ n => simp [modifyNth, ih]

theorem get?_modifyNth_ne (l : List α) (i j : Nat) (f : α → α) (h : ¬ j = i) :
    (modifyNth l i f).get? j = l.get? j := by
  induction l generalizing i j with
  | nil => rfl
  | cons x xs ih =>
    cases i with
    | zero =>
      cases j with
      | zero => exact absurd rfl h
      | succ m => rfl
    | succ n =>
      cases j with
      | zero => rfl
      | succ m => exact ih n m (fun hc => h (by omega))

theorem get?_modifyNth_eq (l : List α) (i : Nat) (f : α → α) :
    (modifyNth l i f).get? i = (l.get? i).map f := by
  induction l generalizing i with
  | nil => rfl
  | cons x xs ih =>
    cases i with
    | zero => rfl
    | succ n => exact ih n

theorem get?_append_left (l l' : List α) (j : Nat) (h : j < l.length) :
    (l ++ l').get? j = l.get? j := by
  induction l generalizing j with
  | nil => simp at h
  | cons x xs ih =>
    cases j with
    | zero => rfl
    | succ m => exact ih m (by simpa using h)

theorem get?_append_right_len (l : List α) (x : α) :
    (l ++ [x]).get? l.length = some x := by
  induction l with
  | nil => rfl
  | cons y ys ih => simpa using ih

/-- The strong structural invariant of the message tree: at least the three
`__init__` nodes; the root is node 0 with no parent; `current` is a valid
id; ids equal list positions; every later node's parent is an earlier node;
and every node's children list is exactly the (increasing) list of ids that
point to it. -/
def SInv (st : AgentState) : Prop :=
  3 ≤ nmsg st
  ∧ st.root_message_id = 0
  ∧ 0 ≤ st.current_message_id
  ∧ st.current_message_id < (nmsg st : Int)
  ∧ (∀ i, i < nmsg st → (msg? st i).map Message.unique_id = some i)
  ∧ parent? st 0 = none
  ∧ (∀ i, i < nmsg st → 0 < i → parent? st i ≠ none ∧ (parent? st i).getD 0 < i)
  ∧ (∀ p, p < nmsg st → (msg? st p).map Message.children
      = some ((List.range (nmsg st)).filter (fun i => decide (parent? st i = some p))))

instance (st : AgentState) : Decidable (SInv st) :=
  inferInstanceAs (Decidable (_ ≤ _ ∧ _ = _ ∧ _ ≤ _ ∧ _ < _
    ∧ (∀ i, i < nmsg st → (msg? st i).map Message.unique_id = some i)
    ∧ _ = _
    ∧ (∀ i, i < nmsg st → 0 < i → parent? st i ≠ none ∧ (parent? st i).getD 0 < i)
    ∧ (∀ p, p < nmsg st → (msg? st p).map Message.children
        = some ((List.range (nmsg st)).filter (fun i => decide (parent? st i = some p))))))

theorem SInv_init : SInv initState := by
  unfold SInv
  decide

theorem add_message_fst (st : AgentState) (role content : String)
    (hne : ¬ st.current_message_id = -1) :
    (add_message st role content).1
      = { st with
          id_to_message :=
            modifyNth
              (st.id_to_message ++
                [⟨role, content, 0, nmsg st, some st.current_message_id.toNat, []⟩])
              st.current_message_id.toNat
              (fun m => { m with children := m.children ++ [nmsg st] }),
          current_message_id := (nmsg st : Int) } := by
  unfold add_message
  rw [if_neg hne]

theorem SInv_add_message (st : AgentState) (h : SInv st) (role content : String) :
    SInv (add_message st role content).1 := by
  obtain ⟨h3, hroot, hcur0, hcurlt, huid, hpar0, hpar, hch⟩ := h
  have hcn : st.current_message_id.toNat < nmsg st := by omega
  have hne : ¬ st.current_message_id = -1 := by omega
  set n := nmsg st with hn
  set c := st.current_message_id.toNat with hcdef
  set newmsg : Message := ⟨role, content, 0, n, some c, []⟩ with hnewdef
  set st' := (add_message st role content).1 with hst'def
  have hst' : st' = { st with
      id_to_message := modifyNth (st.id_to_message ++ [newmsg]) c
        (fun m => { m with children := m.children ++ [n] }),
      current_message_id := (n : Int) } := add_message_fst st role content hne
  have hlen0 : (st.id_to_message ++ [newmsg]).length = n + 1 := by
    simp [hn, nmsg]
  have hlen' : nmsg st' = n + 1 := by
    rw [hst']
    simp only [nmsg, modifyNth_length]
    exact hlen0
  have hmsg_old : ∀ i, i < n → ¬ i = c → msg? st' i = msg? st i := by
    intro i hi hic
    rw [hst']
    simp only [msg?]
    rw [get?_modifyNth_ne _ _ _ _ hic, get?_append_left _ _ _ hi]
  have hmsg_c : msg? st' c
      = (msg? st c).map (fun m => { m with children := m.children ++ [n] }) := by
    rw [hst']
    simp only [msg?]
    rw [get?_modifyNth_eq, get?_append_left _ _ _ hcn]
  have hmsg_new : msg? st' n = some newmsg := by
    rw [hst']
    simp only [msg?]
    rw [get?_modifyNth_ne _ _ _ _ (by omega)]
    have : st.id_to_message.length = n := rfl
    rw [← this, get?_append_right_len]
  have hpar' : ∀ i, i < n → parent? st' i = parent? st i := by
    intro i hi
    by_cases hic : i = c
    · unfold parent?
      rw [hic, hmsg_c]
      cases hm : msg? st c <;> rfl
    · unfold parent?
      rw [hmsg_old i hi hic]
  have hpar_new : parent? st' n = some c := by
    unfold parent?
    rw [hmsg_new, hnewdef]
    rfl
  have huid' : ∀ i, i < n → (msg? st' i).map Message.unique_id
      = (msg? st i).map Message.unique_id := by
    intro i hi
    by_cases hic : i = c
    · rw [hic, hmsg_c]
      cases hm : msg? st c <;> rfl
    · rw [hmsg_old i hi hic]
  have hch_old : ∀ p, p < n → ¬ p = c → (msg? st' p).map Message.children
      = (msg? st p).map Message.children := by
    intro p hp hpc
    rw [hmsg_old p hp hpc]
  have hch_c : (msg? st' c).map Message.children
      = (msg? st c).map (fun m => m.children ++ [n]) := by
    rw [hmsg_c]
    cases hm : msg? st c <;> rfl
  refine ⟨by omega, ?_, ?_, ?_, ?_, ?_, ?_, ?_⟩
  · rw [hst']
    exact hroot
  · rw [hst']
    simp only []
    omega
  · rw [hlen', hst']
    simp only []
    omega
  · -- unique ids
    intro i hi
    rw [hlen'] at hi
    by_cases hin : i = n
    · subst hin
      rw [hmsg_new]
      rfl
    · have hi' : i < n := by omega
      rw [huid' i hi']
      exact huid i hi'
  · -- root parent
    rw [hpar' 0 (by omega)]
    exact hpar0
  · -- parents point strictly backwards
    intro i hi h0
    rw [hlen'] at hi
    by_cases hin : i = n
    · subst hin
      rw [hpar_new]
      exact ⟨by simp, by simp [Option.getD]; omega⟩
    · have hi' : i < n := by omega
      rw [hpar' i hi']
      exact hpar i hi' h0
  · -- children lists are exactly the pointing ids
    intro p hp
    rw [hlen'] at hp
    have hrange : List.range (n + 1) = List.range n ++ [n] := List.range_succ n
    have hfilter_congr : (List.range n).filter (fun i => decide (parent? st' i = some p))
        = (List.range n).filter (fun i => decide (parent? st i = some p)) := by
      apply List.filter_congr
      intro x hx
      rw [hpar' x (List.mem_range.mp hx)]
    rw [hlen', hrange, List.filter_append, hfilter_congr]
    by_cases hpn : p = n
    · subst hpn
      rw [hmsg_new]
      have hnil1 : (List.range n).filter (fun i => decide (parent? st i = some n)) = [] := by
        rw [List.filter_eq_nil_iff]
        intro a ha
        have han : a < n := List.mem_range.mp ha
        simp only [decide_eq_true_eq]
        intro hcontra
        by_cases ha0 : 0 < a
        · have := (hpar a han ha0).2
          rw [hcontra] at this
          simp [Option.getD] at this
          omega
        · have ha0' : a = 0 := by omega
          rw [ha0', hpar0] at hcontra
          exact Option.noConfusion hcontra
      have hnil2 : ([n].filter (fun i => decide (parent? st' i = some n))) = [] := by
        rw [List.filter_eq_nil_iff]
        intro a ha
        rw [List.mem_singleton] at ha
        subst ha
        simp only [decide_eq_true_eq, hpar_new]
        intro hcontra
        have : c = n := Option.some.inj hcontra
        omega
      rw [hnil1, hnil2]
      rfl
    · have hsingle : ([n].filter (fun i => decide (parent? st' i = some p)))
          = if p = c then [n] else [] := by
        by_cases hpc : p = c
        · subst hpc
          simp [hpar_new]
        · simp only [List.filter, hpar_new]
          have : ¬ (some c = some p) := fun hc => hpc (Option.some.inj hc).symm
          simp [this, hpc]
      by_cases hpc : p = c
      · subst hpc
        rw [hch_c, hsingle, if_pos rfl]
        have hold := hch c (by omega)
        cases hm : msg? st c with
        | none =>
          rw [hm] at hold
          exact Option.noConfusion hold
        | some m =>
          rw [hm] at hold
          have : m.children = (List.range n).filter (fun i => decide (parent? st i = some c)) :=
            Option.some.inj hold
          simp [this]
      · have hp' : p < n := by omega
        rw [hch_old p hp' hpc, hsingle, if_neg hpc, List.append_nil]
        exact hch p hp'

/-- Content replacement touches no structural field. -/
theorem SInv_set_content (st : AgentState) (h : SInv st) (mid : Int) (content : String)
    (st' : AgentState) (hok : set_message_content st mid content = .ok st') : SInv st' := by
  unfold set_message_content at hok
  by_cases hr : mid < 0 ∨ ((nmsg st : Int) ≤ mid)
  · rw [if_pos hr] at hok
    exact Except.noConfusion hok
  · rw [if_neg hr] at hok
    have hst' : st' = { st with
        id_to_message := modifyNth st.id_to_message mid.toNat
          (fun m => { m with content := content }) } := (Except.ok.inj hok).symm
    obtain ⟨h3, hroot, hcur0, hcurlt, huid, hpar0, hpar, hch⟩ := h
    have hlen' : nmsg st' = nmsg st := by
      rw [hst']
      simp [nmsg, modifyNth_length]
    have hmsg' : ∀ i, msg? st' i
        = (msg? st i).map (fun m => { m with content := content }) ∨ msg? st' i = msg? st i := by
      intro i
      rw [hst']
      by_cases hi : i = mid.toNat
      · left
        simp only [msg?]
        rw [hi, get?_modifyNth_eq]
      · right
        simp only [msg?]
        rw [get?_modifyNth_ne _ _ _ _ hi]
    have hpar' : ∀ i, parent? st' i = parent? st i := by
      intro i
      rcases hmsg' i with hm | hm
      · unfold parent?
        rw [hm]
        cases msg? st i <;> rfl
      · unfold parent?
        rw [hm]
    have huid' : ∀ i, (msg? st' i).map Message.unique_id
        = (msg? st i).map Message.unique_id := by
      intro i
      rcases hmsg' i with hm | hm
      · rw [hm]
        cases msg? st i <;> rfl
      · rw [hm]
    have hch' : ∀ i, (msg? st' i).map Message.children
        = (msg? st i).map Message.children := by
      intro i
      rcases hmsg' i with hm | hm
      · rw [hm]
        cases msg? st i <;> rfl
      · rw [hm]
    refine ⟨by omega, by rw [hst']; exact hroot, by rw [hst']; exact hcur0, ?_, ?_, ?_, ?_, ?_⟩
    · rw [hlen', hst']
      exact hcurlt
    · intro i hi
      rw [hlen'] at hi
      rw [huid' i]
      exact huid i hi
    · rw [hpar' 0]
      exact hpar0
    · intro i hi h0
      rw [hlen'] at hi
      rw [hpar' i]
      exact hpar i hi h0
    · intro p hp
      rw [hlen'] at hp
      rw [hlen', hch' p]
      have := hch p hp
      rw [this]
      congr 1
      apply List.filter_congr
      intro x _
      rw [hpar' x]

/-- Moving the current pointer to any valid id keeps the invariant. -/
theorem SInv_set_current (st : AgentState) (h : SInv st) (i : Int)
    (h0 : 0 ≤ i) (h1 : i < (nmsg st : Int)) :
    SInv { st with current_message_id := i } := by
  obtain ⟨h3, hroot, hcur0, hcurlt, huid, hpar0, hpar, hch⟩ := h
  exact ⟨h3, hroot, h0, h1, huid, hpar0, hpar, hch⟩

theorem SInv_backtrack (st : AgentState) (h : SInv st) (instr : String) (atId : Int)
    (s : String) (st' : AgentState)
    (hok : add_instructions_and_backtrack_core st instr atId = .ok (s, st')) : SInv st' := by
  unfold add_instructions_and_backtrack_core at hok
  by_cases hr : atId < 0 ∨ ((nmsg st : Int) ≤ atId)
  · rw [if_pos hr] at hok
    exact Except.noConfusion hok
  · rw [if_neg hr] at hok
    cases hset : set_message_content st ((instructions_message_id : Nat) : Int) instr with
    | error e =>
      rw [hset] at hok
      exact Except.noConfusion hok
    | ok stc =>
      rw [hset] at hok
      have hst' : st' = { stc with current_message_id := atId } :=
        congrArg Prod.snd (Except.ok.inj hok) |>.symm
      have hstc := SInv_set_content st h _ instr stc hset
      have hlen : nmsg stc = nmsg st := by
        unfold set_message_content at hset
        rw [if_neg (by
          simp only [instructions_message_id]
          obtain ⟨h3, _⟩ := h
          omega)] at hset
        have := Except.ok.inj hset
        rw [← this]
        simp [nmsg, modifyNth_length]
      rw [hst']
      exact SInv_set_current stc hstc atId (by omega) (by omega)

/-- Every reachable sequence of public tree operations keeps the strong
invariant. -/
theorem SInv_applyOp (st : AgentState) (h : SInv st) (op : TreeOp) :
    SInv (applyOp st op) := by
  cases op with
  | append role content => exact SInv_add_message st h role content
  | setContent mid content =>
    simp only [applyOp]
    cases hset : set_message_content st mid content with
    | ok st' => exact SInv_set_content st h mid content st' hset
    | error e => exact h
  | backtrack instr atId =>
    simp only [applyOp]
    cases hbt : add_instructions_and_backtrack_core st instr atId with
    | ok p =>
      exact SInv_backtrack st h instr atId p.1 p.2 (by rw [hbt])
    | error e => exact h

theorem SInv_applyOps (ops : List TreeOp) :
    ∀ st, SInv st → SInv (applyOps st ops) := by
  induction ops with
  | nil => intro st h; exact h
  | cons op rest ih =>
    intro st h
    exact ih (applyOp st op) (SInv_applyOp st h op)

/-! ## The ancestor walk under the invariant -/

theorem walkUp_succ (st : AgentState) (f cursor : Nat) :
    walkUp st (f + 1) cursor
      = cursor :: (match parent? st cursor with
          | none => []
          | some p => walkUp st f p) := rfl

theorem walkUp_head (st : AgentState) (fuel cursor : Nat) (h : 0 < fuel) :
    (walkUp st fuel cursor).head? = some cursor := by
  cases fuel with
  | zero => omega
  | succ f => rfl

theorem parent_none_of_zero (st : AgentState) (h : SInv st) {cursor : Nat}
    (hcur : cursor < nmsg st) (hp : parent? st cursor = none) : cursor = 0 := by
  by_contra hc
  obtain ⟨_, _, _, _, _, _, hpar, _⟩ := h
  exact (hpar cursor hcur (by omega)).1 hp

theorem parent_lt (st : AgentState) (h : SInv st) {cursor p : Nat}
    (hcur : cursor < nmsg st) (hp : parent? st cursor = some p) : p < cursor := by
  have h0 : 0 < cursor := by
    by_contra hc
    have hz : cursor = 0 := by omega
    rw [hz] at hp
    obtain ⟨_, _, _, _, _, hpar0, _, _⟩ := h
    rw [hpar0] at hp
    exact Option.noConfusion hp
  obtain ⟨_, _, _, _, _, _, hpar, _⟩ := h
  have := (hpar cursor hcur h0).2
  rw [hp] at this
  simpa using this

theorem walkUp_mem_le (st : AgentState) (h : SInv st) :
    ∀ fuel cursor, cursor < nmsg st → cursor < fuel →
      ∀ m ∈ walkUp st fuel cursor, m ≤ cursor := by
  intro fuel
  induction fuel with
  | zero => intro cursor h1 h2; omega
  | succ f ih =>
    intro cursor hcur hfuel m hm
    rw [walkUp_succ] at hm
    cases hp : parent? st cursor with
    | none =>
      rw [hp] at hm
      simp only [List.mem_singleton] at hm
      omega
    | some p =>
      rw [hp] at hm
      rcases List.mem_cons.mp hm with hm | hm
      · omega
      · have hplt : p < cursor := parent_lt st h hcur hp
        have := ih p (by omega) (by omega) m hm
        omega

theorem walkUp_pairwise_gt (st : AgentState) (h : SInv st) :
    ∀ fuel cursor, cursor < nmsg st → cursor < fuel →
      List.Pairwise (fun a b => b < a) (walkUp st fuel cursor) := by
  intro fuel
  induction fuel with
  | zero => intro cursor h1 h2; omega
  | succ f ih =>
    intro cursor hcur hfuel
    rw [walkUp_succ]
    cases hp : parent? st cursor with
    | none => simp
    | some p =>
      have hplt : p < cursor := parent_lt st h hcur hp
      rw [List.pairwise_cons]
      refine ⟨fun m hm => ?_, ih p (by omega) (by omega)⟩
      have := walkUp_mem_le st h f p (by omega) (by omega) m hm
      omega

theorem walkUp_nodup (st : AgentState) (h : SInv st) (fuel cursor : Nat)
    (hcur : cursor < nmsg st) (hfuel : cursor < fuel) :
    (walkUp st fuel cursor).Nodup :=
  (walkUp_pairwise_gt st h fuel cursor hcur hfuel).imp (fun hab => Nat.ne_of_gt hab)

theorem walkUp_chain (st : AgentState) (h : SInv st) :
    ∀ fuel cursor, cursor < nmsg st → cursor < fuel →
      List.Chain' (fun a b => parent? st a = some b) (walkUp st fuel cursor) := by
  intro fuel
  induction fuel with
  | zero => intro cursor h1 h2; omega
  | succ f ih =>
    intro cursor hcur hfuel
    rw [walkUp_succ]
    cases hp : parent? st cursor with
    | none => simp
    | some p =>
      have hplt : p < cursor := parent_lt st h hcur hp
      rw [List.chain'_cons']
      constructor
      · intro y hy
        rw [walkUp_head st f p (by omega)] at hy
        rw [Option.mem_def] at hy
        rw [← Option.some.inj hy]
        exact hp
      · exact ih p (by omega) (by omega)

theorem getLast?_cons_ne_nil {α : Type} (a : α) {l : List α} (h : l ≠ []) :
    (a :: l).getLast? = l.getLast? := by
  cases l with
  | nil => exact absurd rfl h
  | cons b m => rfl

theorem walkUp_getLast (st : AgentState) (h : SInv st) :
    ∀ fuel cursor, cursor < nmsg st → cursor < fuel →
      (walkUp st fuel cursor).getLast? = some 0 := by
  intro fuel
  induction fuel with
  | zero => intro cursor h1 h2; omega
  | succ f ih =>
    intro cursor hcur hfuel
    rw [walkUp_succ]
    cases hp : parent? st cursor with
    | none =>
      have := parent_none_of_zero st h hcur hp
      simp [this]
    | some p =>
      have hplt : p < cursor := parent_lt st h hcur hp
      have hne : walkUp st f p ≠ [] := by
        cases hf : f with
        | zero => omega
        | succ f' =>
          rw [walkUp_succ]
          simp
      rw [getLast?_cons_ne_nil cursor hne]
      exact ih p (by omega) (by omega)

theorem walkUp_fuel (st : AgentState) (h : SInv st) :
    ∀ f1 f2 cursor, cursor < nmsg st → cursor < f1 → cursor < f2 →
      walkUp st f1 cursor = walkUp st f2 cursor := by
  intro f1
  induction f1 with
  | zero => intro f2 cursor h1 h2 h3; omega
  | succ g ih =>
    intro f2 cursor hcur h1 h2
    cases f2 with
    | zero => omega
    | succ g2 =>
      cases hp : parent? st cursor with
      | none => rw [walkUp_succ, walkUp_succ, hp]
      | some p =>
        have hplt : p < cursor := parent_lt st h hcur hp
        rw [walkUp_succ, walkUp_succ, hp]
        show cursor :: walkUp st g p = cursor :: walkUp st g2 p
        rw [ih g2 p (by omega) (by omega) (by omega)]

theorem walkUp_congr (st st' : AgentState) (h : SInv st) :
    ∀ fuel cursor, cursor < nmsg st →
      (∀ i, i ≤ cursor → parent? st' i = parent? st i) →
      walkUp st' fuel cursor = walkUp st fuel cursor := by
  intro fuel
  induction fuel with
  | zero => intro cursor _ _; rfl
  | succ f ih =>
    intro cursor hcur hpp
    cases hp : parent? st cursor with
    | none => rw [walkUp_succ, walkUp_succ, hpp cursor (Nat.le_refl _), hp]
    | some p =>
      have hplt : p < cursor := parent_lt st h hcur hp
      rw [walkUp_succ, walkUp_succ, hpp cursor (Nat.le_refl _), hp]
      show cursor :: walkUp st' f p = cursor :: walkUp st f p
      rw [ih p (by omega) (fun i hi => hpp i (by omega))]

/-! ## Claim C9 -/

/-- The structural invariants exactly as the specification states them:
ids assigned in creation order from 0; exactly one parentless node, which
is the root (node 0); every non-root node's id appears in its parent's
children list exactly once with a strictly smaller parent id (hence no
cycles); and `current` references a valid id. -/
def ClaimInv (st : AgentState) : Prop :=
  (∀ i, i < nmsg st → (msg? st i).map Message.unique_id = some i)
  ∧ (List.range (nmsg st)).filter (fun i => decide (parent? st i = none)) = [0]
  ∧ st.root_message_id = 0
  ∧ parent? st 0 = none
  ∧ (∀ i, i < nmsg st → 0 < i → ∃ p, parent? st i = some p ∧ p < i
      ∧ (childrenOf st p).countP (fun x => x = i) = 1)
  ∧ 0 ≤ st.current_message_id
  ∧ st.current_message_id < (nmsg st : Int)

theorem filter_range_eq_zero (p : Nat → Bool) (n : Nat) (hn : 0 < n) (h0 : p 0 = true)
    (h1 : ∀ i, 0 < i → i < n → p i = false) : (List.range n).filter p = [0] := by
  induction n with
  | zero => omega
  | succ m ih =>
    rw [List.range_succ, List.filter_append]
    by_cases hm : m = 0
    · subst hm
      simp [h0]
    · rw [ih (by omega) (fun i hi1 hi2 => h1 i hi1 (by omega))]
      have hpm : p m = false := h1 m (by omega) (by omega)
      simp [hpm]

theorem ClaimInv_of_SInv (st : AgentState) (h : SInv st) : ClaimInv st := by
  obtain ⟨h3, hroot, hcur0, hcurlt, huid, hpar0, hpar, hch⟩ := h
  refine ⟨huid, ?_, hroot, hpar0, ?_, hcur0, hcurlt⟩
  · apply filter_range_eq_zero _ _ (by omega)
    · simp [hpar0]
    · intro i hi0 hin
      simp only [decide_eq_false_iff_not]
      exact (hpar i hin hi0).1
  · intro i hi h0
    have hne := (hpar i hi h0).1
    have hlt := (hpar i hi h0).2
    cases hp : parent? st i with
    | none => exact absurd hp hne
    | some p =>
      rw [hp] at hlt
      simp only [Option.getD_some] at hlt
      refine ⟨p, rfl, hlt, ?_⟩
      have hpn : p < nmsg st := by omega
      have hchp := hch p hpn
      have hcof : childrenOf st p
          = (List.range (nmsg st)).filter (fun j => decide (parent? st j = some p)) := by
        unfold childrenOf
        rw [hchp]
        rfl
      rw [hcof]
      apply countP_key_eq_one
      · exact (List.nodup_range (nmsg st)).filter _
      · rw [List.mem_filter]
        exact ⟨List.mem_range.mpr hi, by simp [hp]⟩

/-- C9: every sequence of history-tree operations starting from the
initialised agent preserves the structural invariants: ids in creation
order from 0, exactly one parentless node (the root, node 0, which
`root_message_id` designates), every non-root id exactly once in its
parent's children, parents strictly smaller than children (no cycles), and
a valid `current` pointer. -/
theorem tree_ops_preserve_invariants (ops : List TreeOp) :
    ClaimInv (applyOps initState ops) :=
  ClaimInv_of_SInv _ (SInv_applyOps ops initState SInv_init)

/-! ## Claim C7 -/

/-- C7: after any sequence of tree operations, `linearize` renders exactly
the nodes of the root-to-current ancestor path: the output is the
concatenation of the per-node renderings over `pathIds`; that path visits
each node exactly once (`Nodup`), starts at the root, ends at the current
node, follows parent links (so it contains the ancestor chain and nothing
else), and mentions only valid ids — content of nodes outside the path
contributes nothing to the join. -/
theorem linearize_exact_path (tools : List Tool) (ops : List TreeOp) :
    get_context tools (applyOps initState ops)
        = String.join ((pathIds (applyOps initState ops)).map
            (message_id_to_context tools (applyOps initState ops)))
    ∧ (pathIds (applyOps initState ops)).Nodup
    ∧ (pathIds (applyOps initState ops)).head?
        = some (applyOps initState ops).root_message_id.toNat
    ∧ (pathIds (applyOps initState ops)).getLast?
        = some (applyOps initState ops).current_message_id.toNat
    ∧ (∀ m ∈ pathIds (applyOps initState ops), m < nmsg (applyOps initState ops))
    ∧ List.Chain' (fun a b => parent? (applyOps initState ops) b = some a)
        (pathIds (applyOps initState ops)) := by
  have h : SInv (applyOps initState ops) := SInv_applyOps ops initState SInv_init
  obtain ⟨h3, hroot, hcur0, hcurlt, _, _, _, _⟩ := h
  have hne : ¬ (applyOps initState ops).current_message_id = -1 := by omega
  set st := applyOps initState ops with hstdef
  have hsinv : SInv st := SInv_applyOps ops initState SInv_init
  have hcn : st.current_message_id.toNat < nmsg st := by omega
  have hpath : pathIds st = (walkUp st (nmsg st) st.current_message_id.toNat).reverse := by
    unfold pathIds
    rw [if_neg hne]
  refine ⟨?_, ?_, ?_, ?_, ?_, ?_⟩
  · unfold get_context
    rw [if_neg hne, hpath]
  · rw [hpath, List.nodup_reverse]
    exact walkUp_nodup st hsinv (nmsg st) _ hcn (by omega)
  · rw [hpath, List.head?_reverse]
    rw [walkUp_getLast st hsinv (nmsg st) _ hcn (by omega)]
    rw [hroot]
    rfl
  · rw [hpath, List.getLast?_reverse]
    exact walkUp_head st (nmsg st) _ (by omega)
  · intro m hm
    rw [hpath, List.mem_reverse] at hm
    have := walkUp_mem_le st hsinv (nmsg st) _ hcn (by omega) m hm
    omega
  · rw [hpath, List.chain'_reverse]
    exact walkUp_chain st hsinv (nmsg st) _ hcn (by omega)

/-! ## Claim C6 -/

theorem add_message_snd (st : AgentState) (role content : String) :
    (add_message st role content).2 = nmsg st := by
  unfold add_message
  by_cases hc : st.current_message_id = -1 <;> simp [hc]

theorem add_message_nmsg (st : AgentState) (role content : String)
    (hne : ¬ st.current_message_id = -1) :
    nmsg (add_message st role content).1 = nmsg st + 1 := by
  rw [add_message_fst st role content hne]
  simp [nmsg, modifyNth_length]

theorem add_message_current (st : AgentState) (role content : String)
    (hne : ¬ st.current_message_id = -1) :
    (add_message st role content).1.current_message_id = (nmsg st : Int) := by
  rw [add_message_fst st role content hne]

theorem add_message_parent_old (st : AgentState) (role content : String)
    (hne : ¬ st.current_message_id = -1)
    (hcn : st.current_message_id.toNat < nmsg st)
    (i : Nat) (hi : i < nmsg st) :
    parent? (add_message st role content).1 i = parent? st i := by
  rw [add_message_fst st role content hne]
  unfold parent? msg?
  simp only []
  by_cases hic : i = st.current_message_id.toNat
  · rw [hic, get?_modifyNth_eq, get?_append_left _ _ _ hcn]
    cases hm : st.id_to_message.get? st.current_message_id.toNat <;> rfl
  · rw [get?_modifyNth_ne _ _ _ _ hic, get?_append_left _ _ _ hi]

theorem add_message_parent_new (st : AgentState) (role content : String)
    (hne : ¬ st.current_message_id = -1)
    (hcn : st.current_message_id.toNat < nmsg st) :
    parent? (add_message st role content).1 (nmsg st)
      = some st.current_message_id.toNat := by
  rw [add_message_fst st role content hne]
  unfold parent? msg?
  simp only []
  rw [get?_modifyNth_ne _ _ _ _ (by omega)]
  have hl : st.id_to_message.length = nmsg st := rfl
  rw [← hl, get?_append_right_len]
  rfl

theorem add_message_child_linked (st : AgentState) (role content : String)
    (hne : ¬ st.current_message_id = -1)
    (hcn : st.current_message_id.toNat < nmsg st) :
    nmsg st ∈ childrenOf (add_message st role content).1 st.current_message_id.toNat := by
  rw [add_message_fst st role content hne]
  unfold childrenOf msg?
  simp only []
  rw [get?_modifyNth_eq, get?_append_left _ _ _ hcn]
  cases hm : st.id_to_message.get? st.current_message_id.toNat with
  | none =>
    exfalso
    have h1 := List.get?_eq_none.mp hm
    have h2 : nmsg st = st.id_to_message.length := rfl
    omega
  | some m =>
    simp

theorem set_content_nmsg (st : AgentState) (mid : Int) (content : String)
    (st' : AgentState) (hok : set_message_content st mid content = .ok st') :
    nmsg st' = nmsg st := by
  unfold set_message_content at hok
  by_cases hr : mid < 0 ∨ ((nmsg st : Int) ≤ mid)
  · rw [if_pos hr] at hok
    exact Except.noConfusion hok
  · rw [if_neg hr] at hok
    rw [← Except.ok.inj hok]
    simp [nmsg, modifyNth_length]

theorem set_content_parent (st : AgentState) (mid : Int) (content : String)
    (st' : AgentState) (hok : set_message_content st mid content = .ok st') (i : Nat) :
    parent? st' i = parent? st i := by
  unfold set_message_content at hok
  by_cases hr : mid < 0 ∨ ((nmsg st : Int) ≤ mid)
  · rw [if_pos hr] at hok
    exact Except.noConfusion hok
  · rw [if_neg hr] at hok
    rw [← Except.ok.inj hok]
    unfold parent? msg?
    simp only []
    by_cases hic : i = mid.toNat
    · rw [hic, get?_modifyNth_eq]
      cases hm : st.id_to_message.get? mid.toNat <;> rfl
    · rw [get?_modifyNth_ne _ _ _ _ hic]

/-- C6: for a valid node id, backtracking (`add_instructions_and_backtrack`)
followed by `append` creates a node whose parent is exactly that id, links
it into the id's children, makes the rendered path the backtracked path
plus the new node, and excludes from `linearize` every node that was on the
abandoned branch (on the old path but not on the backtracked path). -/
theorem backtrack_append_excludes_branch (st : AgentState) (h : SInv st) (id : Nat)
    (hid : id < nmsg st) (instr role content s : String) (st1 : AgentState)
    (hbt : add_instructions_and_backtrack_core st instr (id : Int) = .ok (s, st1)) :
    parent? (add_message st1 role content).1 (add_message st1 role content).2 = some id
    ∧ (add_message st1 role content).2 ∈ childrenOf (add_message st1 role content).1 id
    ∧ pathIds (add_message st1 role content).1
        = pathIds st1 ++ [(add_message st1 role content).2]
    ∧ ∀ m ∈ pathIds st, m ∉ pathIds st1 → m ∉ pathIds (add_message st1 role content).1 := by
  have hSInv1 : SInv st1 := SInv_backtrack st h instr (id : Int) s st1 hbt
  unfold add_instructions_and_backtrack_core at hbt
  rw [if_neg (by omega)] at hbt
  cases hset : set_message_content st ((instructions_message_id : Nat) : Int) instr with
  | error e =>
    rw [hset] at hbt
    exact Except.noConfusion hbt
  | ok stc =>
    rw [hset] at hbt
    have hst1 : st1 = { stc with current_message_id := (id : Int) } :=
      (congrArg Prod.snd (Except.ok.inj hbt)).symm
    have hn1 : nmsg st1 = nmsg st := by
      rw [hst1]
      exact set_content_nmsg st _ instr stc hset
    have hcur1 : st1.current_message_id = (id : Int) := by rw [hst1]
    have hpar1 : ∀ i, parent? st1 i = parent? st i := by
      intro i
      rw [hst1]
      exact set_content_parent st _ instr stc hset i
    have hne1 : ¬ st1.current_message_id = -1 := by rw [hcur1]; omega
    have htoNat : st1.current_message_id.toNat = id := by rw [hcur1]; simp
    have hcn1 : st1.current_message_id.toNat < nmsg st1 := by rw [htoNat, hn1]; exact hid
    have hsnd : (add_message st1 role content).2 = nmsg st1 := add_message_snd st1 role content
    have hc1 : parent? (add_message st1 role content).1 (nmsg st1) = some id := by
      have := add_message_parent_new st1 role content hne1 hcn1
      rw [htoNat] at this
      exact this
    have hc2 : nmsg st1 ∈ childrenOf (add_message st1 role content).1 id := by
      have := add_message_child_linked st1 role content hne1 hcn1
      rw [htoNat] at this
      exact this
    have hn2 : nmsg (add_message st1 role content).1 = nmsg st1 + 1 :=
      add_message_nmsg st1 role content hne1
    have hcur2 : (add_message st1 role content).1.current_message_id = (nmsg st1 : Int) :=
      add_message_current st1 role content hne1
    have hpar2 : ∀ i, i < nmsg st1 →
        parent? (add_message st1 role content).1 i = parent? st1 i :=
      add_message_parent_old st1 role content hne1 hcn1
    have hne2 : ¬ (add_message st1 role content).1.current_message_id = -1 := by
      rw [hcur2]
      omega
    have hpath2 : pathIds (add_message st1 role content).1 = pathIds st1 ++ [nmsg st1] := by
      unfold pathIds
      rw [if_neg hne2, if_neg hne1]
      have ht2 : (add_message st1 role content).1.current_message_id.toNat = nmsg st1 := by
        rw [hcur2]
        simp
      rw [ht2, htoNat, hn2, walkUp_succ, hc1]
      show (nmsg st1 :: walkUp (add_message st1 role content).1 (nmsg st1) id).reverse
        = (walkUp st1 (nmsg st1) id).reverse ++ [nmsg st1]
      rw [walkUp_congr st1 (add_message st1 role content).1 hSInv1 (nmsg st1) id
        (by omega) (fun i hi => hpar2 i (by omega))]
      rw [List.reverse_cons]
    refine ⟨by rw [hsnd]; exact hc1, by rw [hsnd]; exact hc2, by rw [hsnd]; exact hpath2, ?_⟩
    intro m hm hnot
    rw [hpath2, List.mem_append]
    rintro (hcase | hcase)
    · exact hnot hcase
    · rw [List.mem_singleton] at hcase
      have hmlt : m < nmsg st := by
        unfold pathIds at hm
        have hne0 : ¬ st.current_message_id = -1 := by
          have := h.2.2.1
          omega
        rw [if_neg hne0, List.mem_reverse] at hm
        have hcn0 : st.current_message_id.toNat < nmsg st := by
          have := h.2.2.2.1
          omega
        have := walkUp_mem_le st h (nmsg st) _ hcn0 (by omega) m hm
        omega
      omega

/-- Witness for C6: grow two assistant turns, backtrack to the first one
(id 3) and append; node 4 is the abandoned branch. -/
theorem backtrack_append_excludes_branch_witness :
    SInv (applyOps initState [TreeOp.append "assistant" "step 1", TreeOp.append "assistant" "step 2"])
    ∧ (3 < nmsg (applyOps initState [TreeOp.append "assistant" "step 1", TreeOp.append "assistant" "step 2"]))
    ∧ (parent? (add_message (applyOp (applyOps initState [TreeOp.append "assistant" "step 1", TreeOp.append "assistant" "step 2"]) (TreeOp.backtrack "NEW INSTR" 3)) "assistant" "retry").1
          (add_message (applyOp (applyOps initState [TreeOp.append "assistant" "step 1", TreeOp.append "assistant" "step 2"]) (TreeOp.backtrack "NEW INSTR" 3)) "assistant" "retry").2
        = some 3
      ∧ (add_message (applyOp (applyOps initState [TreeOp.append "assistant" "step 1", TreeOp.append "assistant" "step 2"]) (TreeOp.backtrack "NEW INSTR" 3)) "assistant" "retry").2
        ∈ childrenOf (add_message (applyOp (applyOps initState [TreeOp.append "assistant" "step 1", TreeOp.append "assistant" "step 2"]) (TreeOp.backtrack "NEW INSTR" 3)) "assistant" "retry").1 3
      ∧ pathIds (add_message (applyOp (applyOps initState [TreeOp.append "assistant" "step 1", TreeOp.append "assistant" "step 2"]) (TreeOp.backtrack "NEW INSTR" 3)) "assistant" "retry").1
        = pathIds (applyOp (applyOps initState [TreeOp.append "assistant" "step 1", TreeOp.append "assistant" "step 2"]) (TreeOp.backtrack "NEW INSTR" 3))
          ++ [(add_message (applyOp (applyOps initState [TreeOp.append "assistant" "step 1", TreeOp.append "assistant" "step 2"]) (TreeOp.backtrack "NEW INSTR" 3)) "assistant" "retry").2]
      ∧ ∀ m ∈ pathIds (applyOps initState [TreeOp.append "assistant" "step 1", TreeOp.append "assistant" "step 2"]),
          m ∉ pathIds (applyOp (applyOps initState [TreeOp.append "assistant" "step 1", TreeOp.append "assistant" "step 2"]) (TreeOp.backtrack "NEW INSTR" 3))
          → m ∉ pathIds (add_message (applyOp (applyOps initState [TreeOp.append "assistant" "step 1", TreeOp.append "assistant" "step 2"]) (TreeOp.backtrack "NEW INSTR" 3)) "assistant" "retry").1) :=
  ⟨by decide, by decide,
    backtrack_append_excludes_branch
      (applyOps initState [TreeOp.append "assistant" "step 1", TreeOp.append "assistant" "step 2"])
      (by decide) 3 (by decide) "NEW INSTR" "assistant" "retry"
      "Updated instructions and backtracked to message 3."
      (applyOp (applyOps initState [TreeOp.append "assistant" "step 1", TreeOp.append "assistant" "step 2"]) (TreeOp.backtrack "NEW INSTR" 3))
      (by rfl)⟩

/-! ## Claims C1, C2 (dispatch guards) and C8 (run entry point) -/

/-- C1 (code bug): the prior-inspection guard never fires.  `agent.py`
lines 267-271 add `file_path` to `_recent_files` for `replace_in_file`
BEFORE lines 272-281 test `file_arg not in self._recent_files`, so the test
is always false.  Here: a fresh run (empty `recent_files`, so `main.py` was
never inspected) dispatches an edit; the capability executes ("EDITED
main.py" is recorded) and no "Edit blocked" rejection is ever recorded,
contradicting the claimed guard behaviour. -/
theorem edit_uninspected_guard_never_fires :
    initState.recent_files = []
    ∧ (runResultState (agentRun [replace_in_file_stub, finish] llmEditSmall "fix bug" 1 false)).id_to_message.any
        (fun m => m.role == "tool" && m.content == "EDITED main.py") = true
    ∧ (runResultState (agentRun [replace_in_file_stub, finish] llmEditSmall "fix bug" 1 false)).id_to_message.all
        (fun m => !(strContains m.content "Edit blocked")) = true :=
  ⟨rfl, by rfl, by rfl⟩

/-- C2 (code bug): the large-range guard never rejects.  The
`raise ValueError("Edit blocked: requested range too large (>120 lines).")`
of `agent.py` line 287 sits inside the `try` block whose
`except Exception: pass` (lines 288-290, written for `int()` coercion
failures) catches it, so the dispatch proceeds.  Here the policy condition
holds (300 - 1 = 299 > 120), yet the capability executes and no rejection
is recorded. -/
theorem edit_large_range_guard_swallowed :
    largeRangeGuardTripped (some "1") (some "300") = true
    ∧ (runResultState (agentRun [replace_in_file_stub, finish] llmEditLarge "fix bug" 1 false)).id_to_message.any
        (fun m => m.role == "tool" && m.content == "EDITED main.py") = true
    ∧ (runResultState (agentRun [replace_in_file_stub, finish] llmEditLarge "fix bug" 1 false)).id_to_message.all
        (fun m => !(strContains m.content "Edit blocked")) = true :=
  ⟨by rfl, by rfl, by rfl⟩

/-- C8: the run entry point clamps the step budget to the hard ceiling of
100 (budgets of 100 or more behave identically to 100); with a model that
emits one well-formed `finish` action carrying result "done" and a 3-step
budget it returns "done" having used exactly one step (one assistant
node); with a model whose output has no recognizable markers it records a
parse-diagnostic tool node per step, never propagates the error, and fails
with the step-exhaustion condition after the budget is spent. -/
theorem run_entry_contract :
    (∀ (tools : List Tool) (llm : String → String) (task : String) (guard : Bool) (n : Nat),
      100 ≤ n → agentRun tools llm task n guard = agentRun tools llm task 100 guard)
    ∧ runResultPayload (agentRun [finish] finishLLM "echo task" 3 false) = some "done"
    ∧ run [finish] finishLLM "echo task" 3 false = .ok "done"
    ∧ countRole (runResultState (agentRun [finish] finishLLM "echo task" 3 false)) "assistant" = 1
    ∧ runResultPayload (agentRun [finish] garbageLLM "echo task" 3 false) = none
    ∧ run [finish] garbageLLM "echo task" 3 false
        = .error "Step limit reached without calling finish"
    ∧ countParseErrors (runResultState (agentRun [finish] garbageLLM "echo task" 3 false)) = 3
    ∧ countRole (runResultState (agentRun [finish] garbageLLM "echo task" 3 false)) "assistant" = 3 := by
  refine ⟨?_, by rfl, by rfl, by rfl, by rfl, by rfl, by rfl, by rfl⟩
  intro tools llm task guard n hn
  unfold agentRun
  rw [Nat.min_eq_right hn, Nat.min_self]

/-- Witness for C8's clamping conjunct at a budget of 150. -/
theorem run_entry_contract_witness :
    100 ≤ 150
    ∧ agentRun [finish] garbageLLM "echo task" 150 false
      = agentRun [finish] garbageLLM "echo task" 100 false :=
  ⟨by decide, run_entry_contract.1 [finish] garbageLLM "echo task" false 150 (by decide)⟩
